import Mathlib

/-!
Verification development for the LLL lattice-basis reduction core of the
Elemental repository (`src/lattice/LLL/Unblocked.hpp`).

The C++ source is templated over a real or complex floating-point field `F`.
This development shallowly embeds the real-field instantiation with exact
rational scalars (`ℚ`): `RealPart x = x`, `ImagPart x = 0`.  The numerical
primitives that the source treats as external collaborators (BLAS `nrm2`,
LAPACK `SafeNorm`, `LeftReflector`, machine epsilon, finiteness tests, and
the square root taken by the drivers) are abstracted into a `ScalarOps`
record, mirroring the template parameters and external library calls of
the source; the exact rational primitives (`dot`, `axpy`, `gemv`, `geru`,
column/row swaps) are embedded directly.

The field operations on `ℚ` are spelled through kernel-computable wrappers
`qadd`, `qsub`, `qmul`, `qdiv`, `qneg`, `qabs`, `qmax`, `qle`, `qlt`
(definitionally normalizing fractions through `mkRat`); the bridge
theorems `qadd_eq` etc. below prove each wrapper equal to the
corresponding standard operation on `ℚ`, so the embedded programs compute
ordinary exact rational arithmetic.

Matrices are embedded as total functions `ℕ → ℕ → ℚ` (row, column) with
the height `m` and width `n` carried explicitly, matching the
buffer-plus-dimensions representation (`Buffer()`, `Height()`, `Width()`,
`LDim()`) of the source.  Loops without a structural bound (`while(true)`
in `Step`, `while(k<n)` in the drivers) take an explicit fuel argument and
return `none` on fuel exhaustion.
-/

/-- Kernel-computable addition on `ℚ` (see `qadd_eq`). -/
def qadd (x y : ℚ) : ℚ := mkRat (x.num * y.den + y.num * x.den) (x.den * y.den)

/-- Kernel-computable negation on `ℚ` (see `qneg_eq`). -/
def qneg (x : ℚ) : ℚ := mkRat (-x.num) x.den

/-- Kernel-computable subtraction on `ℚ` (see `qsub_eq`). -/
def qsub (x y : ℚ) : ℚ := qadd x (qneg y)

/-- Kernel-computable multiplication on `ℚ` (see `qmul_eq`). -/
def qmul (x y : ℚ) : ℚ := mkRat (x.num * y.num) (x.den * y.den)

/-- Kernel-computable division on `ℚ` (see `qdiv_eq`); division by zero
yields zero, as in Mathlib's `ℚ`. -/
def qdiv (x y : ℚ) : ℚ :=
  if y.num < 0 then mkRat (-(x.num * y.den)) (x.den * (-y.num).toNat)
  else mkRat (x.num * y.den) (x.den * y.num.toNat)

/-- Kernel-computable order on `ℚ` (see `qle_iff`). -/
def qle (x y : ℚ) : Prop := x.num * y.den ≤ y.num * x.den

/-- Kernel-computable strict order on `ℚ` (see `qlt_iff`). -/
def qlt (x y : ℚ) : Prop := x.num * y.den < y.num * x.den

instance (x y : ℚ) : Decidable (qle x y) := by unfold qle; infer_instance

instance (x y : ℚ) : Decidable (qlt x y) := by unfold qlt; infer_instance

/-- Kernel-computable absolute value on `ℚ` (see `qabs_eq`). -/
def qabs (x : ℚ) : ℚ := if x.num < 0 then qneg x else x

/-- Kernel-computable binary maximum on `ℚ` (see `qmax_eq`). -/
def qmax (x y : ℚ) : ℚ := if qle x y then y else x

/-- Round to the nearest integer, halves away from zero: the behaviour of
`El::Round` (`std::round`) on the real field.  For `x = p/q ≥ 0` in lowest
terms the result is `(2p + q) / (2q)` rounded down, i.e. `⌊x + 1/2⌋`; for
`x < 0` the rounding is mirrored. -/
def roundQ (x : ℚ) : ℚ :=
  if 0 ≤ x.num then mkRat ((2 * x.num.toNat + x.den) / (2 * x.den) : ℕ) 1
  else qneg (mkRat ((2 * (-x.num).toNat + x.den) / (2 * x.den) : ℕ) 1)

/-- Vectors are total functions from an index to a rational. -/
abbrev Vec := ℕ → ℚ

/-- Matrices are total functions from (row, column) to a rational. -/
abbrev Mat := ℕ → ℕ → ℚ

/-- The conjugated dot product `blas::Dot` over `len` entries; on the real
field conjugation is the identity (see `dotc_eq` for the `Finset.sum`
form). -/
def dotc (len : ℕ) (x y : Vec) : ℚ :=
  ((List.range len).map (fun l => qmul (x l) (y l))).foldr qadd 0

/-- Column `j` of a matrix, as a vector. -/
def colOf (A : Mat) (j : ℕ) : Vec := fun i => A i j

/-- Row `i` of a matrix, as a vector. -/
def rowOf (A : Mat) (i : ℕ) : Vec := fun j => A i j

/-- Update the single entry `(i, j)` of a matrix. -/
def updEnt (A : Mat) (i j : ℕ) (v : ℚ) : Mat :=
  fun r c => if r = i ∧ c = j then v else A r c

/-- Replace column `j` of a matrix by the vector `x`. -/
def updCol (A : Mat) (j : ℕ) (x : Vec) : Mat :=
  fun r c => if c = j then x r else A r c

/-- Replace row `i` of a matrix by the vector `x`. -/
def updRow (A : Mat) (i : ℕ) (x : Vec) : Mat :=
  fun r c => if r = i then x c else A r c

/-- Update a single coordinate of a vector. -/
def updV (x : Vec) (i : ℕ) (v : ℚ) : Vec :=
  fun l => if l = i then v else x l

/-- Zero the first `m` rows of column `j` (the in-place loops
`for(i=0;i<m;++i) buf[i+j*ldim]=0` and `Zero` on a column view). -/
def zeroColM (m : ℕ) (A : Mat) (j : ℕ) : Mat :=
  fun r c => if c = j ∧ r < m then 0 else A r c

/-- Swap of two full columns (`El::ColSwap`). -/
def ColSwap (A : Mat) (i j : ℕ) : Mat :=
  fun r c => if c = i then A r j else if c = j then A r i else A r c

/-- Swap of two full rows (`El::RowSwap`). -/
def RowSwap (A : Mat) (i j : ℕ) : Mat :=
  fun r c => if r = i then A j c else if r = j then A i c else A r c

/-- In-place `blas::Axpy(len, a, &A(0,src), 1, &A(0,dst), 1)`: add `a`
times the first `len` rows of column `src` to the first `len` rows of
column `dst`. -/
def axpyColPrefix (len : ℕ) (a : ℚ) (src dst : ℕ) (A : Mat) : Mat :=
  fun r c => if c = dst ∧ r < len then qadd (A r dst) (qmul a (A r src)) else A r c

/-- In-place `blas::Axpy(len, a, &A(src,0), ldim, &A(dst,0), ldim)`: add
`a` times the first `len` entries of row `src` to row `dst`. -/
def axpyRowPrefix (len : ℕ) (a : ℚ) (src dst : ℕ) (A : Mat) : Mat :=
  fun r c => if r = dst ∧ c < len then qadd (A dst c) (qmul a (A src c)) else A r c

/-- The real part of a scalar; the identity on the real field. -/
def rePart (x : ℚ) : ℚ := x

/-- The imaginary part of a scalar; zero on the real field. -/
def imPart (_ : ℚ) : ℚ := 0

/-- The numerical primitives that `Unblocked.hpp` receives from outside the
captured source (they live in Elemental's BLAS/LAPACK interface layers and
in `limits`, none of which are under `src/`): column 2-norms
(`blas::Nrm2`), `FrobeniusNorm` of a column view, `lapack::SafeNorm`,
`Sqrt`, `limits::IsFinite`, `limits::Epsilon`, and the Householder
`LeftReflector` (split into the returned `tau`, the overwritten head
`beta`, and the overwritten tail, all functions of the head and tail it is
given).  `achievedDelta`, `achievedEta` and `logVolume` are modelled from
the spec: `lll::Achieved` and `lll::LogVolume` are called by the drivers
but are missing from the captured source, and the spec says they scan `R`
to produce the reported quality `(delta, eta)` and the log-volume. -/
structure ScalarOps where
  nrm2 : ℕ → Vec → ℚ
  frobNorm : ℕ → Vec → ℚ
  safeNorm : ℚ → ℚ → ℚ
  sqrtF : ℚ → ℚ
  isFinite : ℚ → Bool
  eps : ℚ
  lrTau : ℚ → ℕ → Vec → ℚ
  lrBeta : ℚ → ℕ → Vec → ℚ
  lrTail : ℚ → ℕ → Vec → Vec
  achievedDelta : Mat → ℚ
  achievedEta : Mat → ℚ
  logVolume : Mat → ℚ

/-- The control structure `El::LLLCtrl` (`include/El/lattice.hpp`).  The
source defaults for `eta` and `zeroTol` involve `Pow(eps, 0.9)` of the
floating-point type and are therefore left as required fields here. -/
structure LLLCtrl where
  delta : ℚ := mkRat 3 4
  eta : ℚ
  weak : Bool := false
  deep : Bool := false
  presort : Bool := true
  smallestFirst : Bool := true
  reorthogTol : ℚ := 0
  numOrthog : ℕ := 1
  zeroTol : ℚ
  progress : Bool := false
  time : Bool := false

/-- The result structure `El::LLLInfo`. -/
structure LLLInfo where
  delta : ℚ
  eta : ℚ
  rank : ℤ
  nullity : ℕ
  numSwaps : ℕ
  logVol : ℚ

/-- The two `RuntimeError` failures raised inside `lll::Step`: a non-finite
column norm (overflow), and a column norm exceeding `1/eps` (precision
exhausted). -/
inductive LLLErr where
  | overflow
  | precisionExhausted
deriving DecidableEq

/-- The mutable working set of the reducer: the basis `B`, the optional
transforms `U` and `UInv`, the implicit factorization `QR` and the
reflector data `t`, `d`. -/
structure LLLState where
  B : Mat
  U : Mat
  UInv : Mat
  QR : Mat
  t : Vec
  d : Vec

/-- Application of the `i`-th stored Householder reflector to column `k` of
`QR` (the body of the inner loop of `lll::ExpandQR`): temporarily replace
`QR(i,i)` by `1`, take the conjugated inner product of rows `i..m-1` of
columns `i` and `k`, axpy `-t[i]*innerProd` times column `i` into column
`k` on rows `i..m-1`, rescale position `i` of column `k` by `d[i]`, and
restore the saved diagonal value. -/
def ApplyReflector (m i k : ℕ) (t : Vec) (d : Vec) (QR : Mat) : Mat :=
  let alpha := rePart (QR i i)
  let QR1 := updEnt QR i i 1
  let innerProd := dotc (m - i) (fun l => QR1 (i + l) i) (fun l => QR1 (i + l) k)
  let QR2 : Mat := fun r c =>
    if c = k ∧ i ≤ r ∧ r < m then
      qadd (QR1 r k) (qmul (qneg (qmul (t i) innerProd)) (QR1 r i))
    else QR1 r c
  let QR3 := updEnt QR2 i k (qmul (QR2 i k) (d i))
  updEnt QR3 i i alpha

/-- The function `lll::ExpandQR`: copy the `k`-th column of `B` into the
`k`-th column of `QR`, then `numOrthog` times apply the reflectors
`0..k-1` in increasing order. -/
def ExpandQR (m k : ℕ) (B : Mat) (QR : Mat) (t : Vec) (d : Vec) (numOrthog : ℕ) : Mat :=
  let QR0 : Mat := fun r c => if c = k ∧ r < m then B r k else QR r c
  (List.range numOrthog).foldl
    (fun Q _ => (List.range k).foldl (fun Q2 i => ApplyReflector m i k t d Q2) Q) QR0

/-- The function `lll::HouseholderStep`: form the next left reflector via
`LeftReflector` (which overwrites `QR(k,k)` and the tail `QR(k+1..m-1,k)`),
record `t[k] = tau`, and if the new diagonal value has negative real part
set `d[k] = -1` and negate it, else set `d[k] = +1`.  Returns the updated
`(QR, t, d)`. -/
def HouseholderStep (ops : ScalarOps) (m k : ℕ) (QR : Mat) (t : Vec) (d : Vec) :
    Mat × Vec × Vec :=
  let rho := QR k k
  let tailLen := m - (k + 1)
  let tl : Vec := fun l => QR (k + 1 + l) k
  let tau := ops.lrTau rho tailLen tl
  let beta := ops.lrBeta rho tailLen tl
  let v := ops.lrTail rho tailLen tl
  let QR1 : Mat := fun r c =>
    if c = k ∧ k + 1 ≤ r ∧ r < m then v (r - (k + 1)) else QR r c
  let QR2 := updEnt QR1 k k beta
  let t' := updV t k tau
  if qlt (rePart (QR2 k k)) 0 then
    (updEnt QR2 k k (qneg (QR2 k k)), t', updV d k (-1))
  else
    (QR2, t', updV d k 1)

/-- The weak size-reduction branch of `lll::Step` (`ctrl.weak == true`):
a single coefficient against column `k-1`, applied to the first `k` rows
of `QR`'s column `k`, to `B`'s column `k`, to `U`'s column `k` when
tracked, and dually to `UInv`'s row `k-1` when tracked. -/
def WeakReduce (ctrl : LLLCtrl) (m n k : ℕ) (formU formUInv : Bool)
    (st : LLLState) : LLLState :=
  let rho_km1_km1 := rePart (st.QR (k - 1) (k - 1))
  if qlt ctrl.zeroTol rho_km1_km1 then
    let chi0 := qdiv (st.QR (k - 1) k) rho_km1_km1
    if qlt ctrl.eta (qabs (rePart chi0)) ∨ qlt ctrl.eta (qabs (imPart chi0)) then
      let chi := roundQ chi0
      { st with
        QR := axpyColPrefix k (qneg chi) (k - 1) k st.QR,
        B := axpyColPrefix m (qneg chi) (k - 1) k st.B,
        U := if formU then axpyColPrefix n (qneg chi) (k - 1) k st.U else st.U,
        UInv := if formUInv then axpyRowPrefix n chi k (k - 1) st.UInv else st.UInv }
    else st
  else st

/-- The descending scan of the standard size-reduction branch of
`lll::Step`: processes `i = cnt-1` down to `0`, producing the updated `QR`
and the coefficient vector `x` (zero outside the processed range). -/
def SizeReduceScan (ctrl : LLLCtrl) (k : ℕ) : ℕ → Mat → Mat × Vec
  | 0, QR => (QR, fun _ => 0)
  | i + 1, QR =>
    let pr : Mat × ℚ :=
      if qle (qabs (QR i i)) ctrl.zeroTol then (QR, 0)
      else
        let chi0 := qdiv (QR i k) (QR i i)
        if qlt ctrl.eta (qabs (rePart chi0)) ∨ qlt ctrl.eta (qabs (imPart chi0)) then
          (axpyColPrefix (i + 1) (qneg (roundQ chi0)) i k QR, roundQ chi0)
        else (QR, 0)
    let rest := SizeReduceScan ctrl k i pr.1
    (rest.1, updV rest.2 i pr.2)

/-- The accumulated update `blas::Gemv('N', len, k, -1, A, x, +1, A(:,k))`:
column `k` loses `sum_{i<k} x i` times column `i`, on the first `len`
rows. -/
def GemvColUpdate (len k : ℕ) (x : Vec) (A : Mat) : Mat :=
  fun r c =>
    if c = k ∧ r < len then qsub (A r k) (dotc k x (fun i => A r i)) else A r c

/-- The accumulated update `blas::Geru(k, n, 1, x, 1, &A(k,0), ldim, A,
ldim)`: entry `(i,j)` with `i < k`, `j < n` gains `x i * A k j`. -/
def GeruRowUpdate (n k : ℕ) (x : Vec) (A : Mat) : Mat :=
  fun r c => if r < k ∧ c < n then qadd (A r c) (qmul (x r) (A k c)) else A r c

/-- The standard size-reduction branch of `lll::Step` (`ctrl.weak ==
false`): the descending scan over `QR`, then the single-pass applications
to `B`, to `U` when tracked (Gemv), and to `UInv` when tracked (Geru). -/
def StandardReduce (ctrl : LLLCtrl) (m n k : ℕ) (formU formUInv : Bool)
    (st : LLLState) : LLLState :=
  let sc := SizeReduceScan ctrl k k st.QR
  { st with
    QR := sc.1,
    B := GemvColUpdate m k sc.2 st.B,
    U := if formU then GemvColUpdate n k sc.2 st.U else st.U,
    UInv := if formUInv then GeruRowUpdate n k sc.2 st.UInv else st.UInv }

/-- The three possible outcomes of one iteration of the `while(true)` loop
of `lll::Step`: loop again (`next`), or return with the `zeroVector`
flag (`done`). -/
inductive StepOut where
  | next (st : LLLState)
  | done (st : LLLState) (zeroVector : Bool)

/-- One iteration of the `while(true)` loop of `lll::Step`: expand column
`k` of `QR`, guard the pre-reduction norm (non-finite values raise
overflow, values above `1/eps` raise precision exhaustion), test the norm
against `zeroTol` (on success zero `B(:,k)` and `QR(:,k)`, set `t[k]=1/2`,
`d[k]=1` and return `true`), size-reduce (weak or standard), guard the
post-reduction norm the same way, and either exit through
`HouseholderStep` returning `false`, or loop when the new norm is at most
`reorthogTol` times the old one. -/
def StepIter (ops : ScalarOps) (ctrl : LLLCtrl) (m n k : ℕ)
    (formU formUInv : Bool) (st : LLLState) : Except LLLErr StepOut :=
  let st0 := { st with QR := ExpandQR m k st.B st.QR st.t st.d ctrl.numOrthog }
  let oldNorm := ops.nrm2 m (colOf st0.B k)
  if ops.isFinite oldNorm = false then .error .overflow
  else if qlt (qdiv 1 ops.eps) oldNorm then .error .precisionExhausted
  else if qle oldNorm ctrl.zeroTol then
    .ok (.done { st0 with
      B := zeroColM m st0.B k, QR := zeroColM m st0.QR k,
      t := updV st0.t k (mkRat 1 2), d := updV st0.d k 1 } true)
  else
    let st1 := if ctrl.weak then WeakReduce ctrl m n k formU formUInv st0
               else StandardReduce ctrl m n k formU formUInv st0
    let newNorm := ops.nrm2 m (colOf st1.B k)
    if ops.isFinite newNorm = false then .error .overflow
    else if qlt (qdiv 1 ops.eps) newNorm then .error .precisionExhausted
    else if qlt (qmul ctrl.reorthogTol oldNorm) newNorm then
      let h := HouseholderStep ops m k st1.QR st1.t st1.d
      .ok (.done { st1 with QR := h.1, t := h.2.1, d := h.2.2 } false)
    else .ok (.next st1)

/-- The function `lll::Step` (its `while(true)` loop), with fuel; returns
`none` on fuel exhaustion, otherwise the final state together with the
`zeroVector` flag. -/
def Step (ops : ScalarOps) (ctrl : LLLCtrl) (m n k : ℕ)
    (formU formUInv : Bool) : ℕ → LLLState → Except LLLErr (Option (LLLState × Bool))
  | 0, _ => .ok none
  | fuel + 1, st =>
    match StepIter ops ctrl m n k formU formUInv st with
    | .error e => .error e
    | .ok (.done st' b) => .ok (some (st', b))
    | .ok (.next st') => Step ops ctrl m n k formU formUInv fuel st'

/-- The (re-)initialization of column 0 shared by the driver entry and the
`k == 1` swap branch of `lll::UnblockedAlg`: `ExpandQR(0)`,
`HouseholderStep(0)`, then the zero test of `B(:,0)` against `zeroTol`
(zeroing the column and reporting nullity `1` when it fires, else nullity
`0`). -/
def InitFirstColumn (ops : ScalarOps) (ctrl : LLLCtrl) (m : ℕ)
    (st : LLLState) : LLLState × ℕ :=
  let QR1 := ExpandQR m 0 st.B st.QR st.t st.d ctrl.numOrthog
  let h := HouseholderStep ops m 0 QR1 st.t st.d
  let st1 := { st with QR := h.1, t := h.2.1, d := h.2.2 }
  if qle (ops.frobNorm m (colOf st1.B 0)) ctrl.zeroTol then
    ({ st1 with B := zeroColM m st1.B 0, QR := zeroColM m st1.QR 0 }, 1)
  else (st1, 0)

/-- The Lovász test and swap logic at the bottom of the main loop of
`lll::UnblockedAlg` (after `Step(k)` and the nullity update).  Returns the
new `(state, k, nullity, numSwaps)`. -/
def LovaszTestAndSwap (ops : ScalarOps) (ctrl : LLLCtrl) (m n : ℕ)
    (formU formUInv : Bool) (st : LLLState) (k nullity numSwaps : ℕ) :
    LLLState × ℕ × ℕ × ℕ :=
  let rho_km1_km1 := rePart (st.QR (k - 1) (k - 1))
  let rho_km1_k := st.QR (k - 1) k
  let rho_k_k := rePart (st.QR k k)
  let leftTerm := qmul (ops.sqrtF ctrl.delta) rho_km1_km1
  let rightTerm := ops.safeNorm rho_k_k rho_km1_k
  if qle leftTerm rightTerm then (st, k + 1, nullity, numSwaps)
  else
    let st1 := { st with
      B := ColSwap st.B (k - 1) k,
      U := if formU then ColSwap st.U (k - 1) k else st.U,
      UInv := if formUInv then RowSwap st.UInv (k - 1) k else st.UInv }
    if k = 1 then
      let p := InitFirstColumn ops ctrl m st1
      (p.1, 1, p.2, numSwaps + 1)
    else (st1, k - 1, nullity, numSwaps + 1)

/-- The main `while(k<n)` loop of `lll::UnblockedAlg`, with fuel (also used
as the fuel of each inner `Step` call). -/
def UnblockedLoop (ops : ScalarOps) (ctrl : LLLCtrl) (m n : ℕ)
    (formU formUInv : Bool) :
    ℕ → LLLState × ℕ × ℕ × ℕ → Except LLLErr (Option (LLLState × ℕ × ℕ))
  | 0, (st, k, nullity, numSwaps) =>
    if k < n then .ok none else .ok (some (st, nullity, numSwaps))
  | fuel + 1, (st, k, nullity, numSwaps) =>
    if k < n then
      match Step ops ctrl m n k formU formUInv (fuel + 1) st with
      | .error e => .error e
      | .ok none => .ok none
      | .ok (some (st', zeroVector)) =>
        let nullity1 := if zeroVector then k + 1 else min nullity k
        UnblockedLoop ops ctrl m n formU formUInv fuel
          (LovaszTestAndSwap ops ctrl m n formU formUInv st' k nullity1 numSwaps)
    else .ok (some (st, nullity, numSwaps))

/-- The final `MakeTrapezoidal(UPPER, QR)`: zero the strictly lower part. -/
def MakeTrapezoidalUpper (A : Mat) : Mat := fun r c => if c < r then 0 else A r c

/-- The epilogue of the drivers: force `R` upper-trapezoidal, and assemble
the `LLLInfo` (`rank = n - nullity`; the achieved quality and log-volume
come from the external `lll::Achieved`/`lll::LogVolume`, held in `ops`). -/
def FinishInfo (ops : ScalarOps) (n : ℕ) (st : LLLState)
    (nullity numSwaps : ℕ) : LLLState × LLLInfo :=
  let QRt := MakeTrapezoidalUpper st.QR
  ({ st with QR := QRt },
   { delta := ops.achievedDelta QRt, eta := ops.achievedEta QRt,
     rank := (n : ℤ) - (nullity : ℤ), nullity := nullity,
     numSwaps := numSwaps, logVol := ops.logVolume QRt })

/-- The flat driver `lll::UnblockedAlg`: zero `QR`, `t`, `d`; initialize
column 0; run the main loop from `k = 1`; finish with the trapezoidal
forcing and the info assembly. -/
def UnblockedAlg (ops : ScalarOps) (ctrl : LLLCtrl) (m n : ℕ)
    (B U UInv : Mat) (formU formUInv : Bool) (fuel : ℕ) :
    Except LLLErr (Option (LLLState × LLLInfo)) :=
  let st0 : LLLState :=
    { B := B, U := U, UInv := UInv, QR := fun _ _ => 0,
      t := fun _ => 0, d := fun _ => 0 }
  let p := InitFirstColumn ops ctrl m st0
  match UnblockedLoop ops ctrl m n formU formUInv fuel (p.1, 1, p.2, 0) with
  | .error e => .error e
  | .ok none => .ok none
  | .ok (some (st, nullity, numSwaps)) =>
    .ok (some (FinishInfo ops n st nullity numSwaps))

/-- The descending column shift loop inside `lll::DeepColSwap`: processes
`l = i+cnt-1` down to `i`, copying column `l` onto column `l+1`. -/
def ShiftColsRight (i : ℕ) : ℕ → Mat → Mat
  | 0, A => A
  | cnt + 1, A => ShiftColsRight i cnt (updCol A (i + cnt + 1) (colOf A (i + cnt)))

/-- The function `lll::DeepColSwap`: save column `k`, shift columns
`i..k-1` right by one, and place the saved column at position `i`. -/
def DeepColSwap (A : Mat) (i k : ℕ) : Mat :=
  let bkCopy := colOf A k
  updCol (ShiftColsRight i (k - i) A) i bkCopy

/-- The descending row shift loop inside `lll::DeepRowSwap`. -/
def ShiftRowsDown (i : ℕ) : ℕ → Mat → Mat
  | 0, A => A
  | cnt + 1, A => ShiftRowsDown i cnt (updRow A (i + cnt + 1) (rowOf A (i + cnt)))

/-- The function `lll::DeepRowSwap`: save row `k`, shift rows `i..k-1`
down by one, and place the saved row at position `i`. -/
def DeepRowSwap (A : Mat) (i k : ℕ) : Mat :=
  let bkCopy := rowOf A k
  updRow (ShiftRowsDown i (k - i) A) i bkCopy

/-- The hard-wired `alwaysRecomputeNorms` constant of
`lll::UnblockedDeepAlg` (line 449 of `Unblocked.hpp`). -/
def alwaysRecomputeNorms : Bool := true

/-- The deep-insertion scan of `lll::UnblockedDeepAlg` over `i = 0..k-1`
(with `cnt = k - i` positions remaining): at each `i` either deep insert
column `k` at position `i` (re-initializing column 0 when `i = 0`) and
stop, or downdate the partial norm in the manner of LAWN 176 and
continue.  Returns `(state, k, nullity, swapped)`. -/
def DeepScan (ops : ScalarOps) (ctrl : LLLCtrl) (m n k : ℕ)
    (formU formUInv : Bool) (updateTol : ℚ) :
    ℕ → ℕ → ℚ → ℚ → LLLState → ℕ → LLLState × ℕ × ℕ × Bool
  | 0, _, _, _, st, nullity => (st, k, nullity, false)
  | cnt + 1, i, origNorm, partNorm, st, nullity =>
    let rho_i_i := rePart (st.QR i i)
    let leftTerm := qmul (ops.sqrtF ctrl.delta) rho_i_i
    if qlt partNorm leftTerm then
      let st1 := { st with
        B := DeepColSwap st.B i k,
        U := if formU then DeepColSwap st.U i k else st.U,
        UInv := if formUInv then DeepRowSwap st.UInv i k else st.UInv }
      if i = 0 then
        let p := InitFirstColumn ops ctrl m st1
        (p.1, 1, p.2, true)
      else (st1, i, nullity, true)
    else
      let gamma0 := qdiv (qabs (st.QR i k)) partNorm
      let gamma := qmax 0 (qmul (qsub 1 gamma0) (qadd 1 gamma0))
      let ratio := qdiv partNorm origNorm
      let phi := qmul gamma (qmul ratio ratio)
      if qle phi updateTol ∨ alwaysRecomputeNorms = true then
        let pN := ops.nrm2 (k - i) (fun l => st.QR (i + 1 + l) k)
        DeepScan ops ctrl m n k formU formUInv updateTol cnt (i + 1) pN pN st nullity
      else
        DeepScan ops ctrl m n k formU formUInv updateTol cnt (i + 1) origNorm
          (qmul partNorm (ops.sqrtF gamma)) st nullity

/-- The main `while(k<n)` loop of `lll::UnblockedDeepAlg`, with fuel. -/
def UnblockedDeepLoop (ops : ScalarOps) (ctrl : LLLCtrl) (m n : ℕ)
    (formU formUInv : Bool) :
    ℕ → LLLState × ℕ × ℕ × ℕ → Except LLLErr (Option (LLLState × ℕ × ℕ))
  | 0, (st, k, nullity, numSwaps) =>
    if k < n then .ok none else .ok (some (st, nullity, numSwaps))
  | fuel + 1, (st, k, nullity, numSwaps) =>
    if k < n then
      match Step ops ctrl m n k formU formUInv (fuel + 1) st with
      | .error e => .error e
      | .ok none => .ok none
      | .ok (some (st', zeroVector)) =>
        let nullity1 := if zeroVector then k + 1 else min nullity k
        let origNorm := ops.nrm2 (k + 1) (colOf st'.QR k)
        let sc := DeepScan ops ctrl m n k formU formUInv (ops.sqrtF ops.eps)
          k 0 origNorm origNorm st' nullity1
        let k2 := if sc.2.2.2 then sc.2.1 else k + 1
        let numSwaps2 := if sc.2.2.2 then numSwaps + 1 else numSwaps
        UnblockedDeepLoop ops ctrl m n formU formUInv fuel
          (sc.1, k2, sc.2.2.1, numSwaps2)
    else .ok (some (st, nullity, numSwaps))

/-- The deep-insertion driver `lll::UnblockedDeepAlg`. -/
def UnblockedDeepAlg (ops : ScalarOps) (ctrl : LLLCtrl) (m n : ℕ)
    (B U UInv : Mat) (formU formUInv : Bool) (fuel : ℕ) :
    Except LLLErr (Option (LLLState × LLLInfo)) :=
  let st0 : LLLState :=
    { B := B, U := U, UInv := UInv, QR := fun _ _ => 0,
      t := fun _ => 0, d := fun _ => 0 }
  let p := InitFirstColumn ops ctrl m st0
  match UnblockedDeepLoop ops ctrl m n formU formUInv fuel (p.1, 1, p.2, 0) with
  | .error e => .error e
  | .ok none => .ok none
  | .ok (some (st, nullity, numSwaps)) =>
    .ok (some (FinishInfo ops n st nullity numSwaps))

/-- Variant of `DeepScan` with the LAWN-176 fallback test removed: after a
position that does not trigger an insertion, the partial norm is always
recomputed as the 2-norm of `QR(i+1..k, k)` (no multiplicative downdate
branch, no `phi <= updateTol` test). -/
def DeepScanNF (ops : ScalarOps) (ctrl : LLLCtrl) (m n k : ℕ)
    (formU formUInv : Bool) (updateTol : ℚ) :
    ℕ → ℕ → ℚ → ℚ → LLLState → ℕ → LLLState × ℕ × ℕ × Bool
  | 0, _, _, _, st, nullity => (st, k, nullity, false)
  | cnt + 1, i, _, partNorm, st, nullity =>
    let rho_i_i := rePart (st.QR i i)
    let leftTerm := qmul (ops.sqrtF ctrl.delta) rho_i_i
    if qlt partNorm leftTerm then
      let st1 := { st with
        B := DeepColSwap st.B i k,
        U := if formU then DeepColSwap st.U i k else st.U,
        UInv := if formUInv then DeepRowSwap st.UInv i k else st.UInv }
      if i = 0 then
        let p := InitFirstColumn ops ctrl m st1
        (p.1, 1, p.2, true)
      else (st1, i, nullity, true)
    else
      let pN := ops.nrm2 (k - i) (fun l => st.QR (i + 1 + l) k)
      DeepScanNF ops ctrl m n k formU formUInv updateTol cnt (i + 1) pN pN st nullity

/-- The deep loop built on `DeepScanNF` instead of `DeepScan`. -/
def UnblockedDeepLoopNF (ops : ScalarOps) (ctrl : LLLCtrl) (m n : ℕ)
    (formU formUInv : Bool) :
    ℕ → LLLState × ℕ × ℕ × ℕ → Except LLLErr (Option (LLLState × ℕ × ℕ))
  | 0, (st, k, nullity, numSwaps) =>
    if k < n then .ok none else .ok (some (st, nullity, numSwaps))
  | fuel + 1, (st, k, nullity, numSwaps) =>
    if k < n then
      match Step ops ctrl m n k formU formUInv (fuel + 1) st with
      | .error e => .error e
      | .ok none => .ok none
      | .ok (some (st', zeroVector)) =>
        let nullity1 := if zeroVector then k + 1 else min nullity k
        let origNorm := ops.nrm2 (k + 1) (colOf st'.QR k)
        let sc := DeepScanNF ops ctrl m n k formU formUInv (ops.sqrtF ops.eps)
          k 0 origNorm origNorm st' nullity1
        let k2 := if sc.2.2.2 then sc.2.1 else k + 1
        let numSwaps2 := if sc.2.2.2 then numSwaps + 1 else numSwaps
        UnblockedDeepLoopNF ops ctrl m n formU formUInv fuel
          (sc.1, k2, sc.2.2.1, numSwaps2)
    else .ok (some (st, nullity, numSwaps))

/-- The deep driver built on the no-fallback scan. -/
def UnblockedDeepAlgNF (ops : ScalarOps) (ctrl : LLLCtrl) (m n : ℕ)
    (B U UInv : Mat) (formU formUInv : Bool) (fuel : ℕ) :
    Except LLLErr (Option (LLLState × LLLInfo)) :=
  let st0 : LLLState :=
    { B := B, U := U, UInv := UInv, QR := fun _ _ => 0,
      t := fun _ => 0, d := fun _ => 0 }
  let p := InitFirstColumn ops ctrl m st0
  match UnblockedDeepLoopNF ops ctrl m n formU formUInv fuel (p.1, 1, p.2, 0) with
  | .error e => .error e
  | .ok none => .ok none
  | .ok (some (st, nullity, numSwaps)) =>
    .ok (some (FinishInfo ops n st nullity numSwaps))

/-- Structural integer square root (largest `k` with `k*k ≤ n`), linear
scan; used by the concrete instance below. -/
def natSqrtLin (n : ℕ) : ℕ :=
  (List.range (n + 2)).foldl (fun acc k => if k * k ≤ n then k else acc) 0

/-- Rational square root used by the concrete instance: exact on quotients
of perfect squares (every value the concrete runs below take a square root
of). -/
def ratSqrt (x : ℚ) : ℚ := mkRat (natSqrtLin x.num.toNat) (natSqrtLin x.den)

/-- Sum of squares of the first `len` coordinates. -/
def sumSq (len : ℕ) (x : Vec) : ℚ := dotc len x x

/-- Concrete 2-norm: `ratSqrt` of the sum of squares. -/
def nrm2Q (len : ℕ) (x : Vec) : ℚ := ratSqrt (sumSq len x)

/-- Concrete `SafeNorm`. -/
def safeNormQ (a b : ℚ) : ℚ := ratSqrt (qadd (qmul a a) (qmul b b))

/-- Concrete `LeftReflector` head output (LAPACK `larfg` on the real
field): if the tail is zero the head is returned unchanged (with
`tau = 0`), else the head becomes `-sign(head) * norm(head, tail)`. -/
def lrBetaQ (a : ℚ) (len : ℕ) (x : Vec) : ℚ :=
  if sumSq len x = 0 then a
  else if qle 0 a then qneg (ratSqrt (qadd (qmul a a) (sumSq len x)))
  else ratSqrt (qadd (qmul a a) (sumSq len x))

/-- Concrete `LeftReflector` scaling coefficient `tau = (beta - alpha) /
beta` (zero for a zero tail). -/
def lrTauQ (a : ℚ) (len : ℕ) (x : Vec) : ℚ :=
  if sumSq len x = 0 then 0 else qdiv (qsub (lrBetaQ a len x) a) (lrBetaQ a len x)

/-- Concrete `LeftReflector` tail output `v = x / (alpha - beta)` (the
tail is returned unchanged when it is zero). -/
def lrTailQ (a : ℚ) (len : ℕ) (x : Vec) : Vec :=
  if sumSq len x = 0 then x else fun l => qdiv (x l) (qsub a (lrBetaQ a len x))

/-- The concrete rational instantiation of the external primitives:
everything is finite, `eps = 2^(-20)`, and the achieved-quality and
log-volume scans (external to the captured source) report `0`. -/
def opsQ : ScalarOps where
  nrm2 := nrm2Q
  frobNorm := nrm2Q
  safeNorm := safeNormQ
  sqrtF := ratSqrt
  isFinite := fun _ => true
  eps := mkRat 1 1048576
  lrTau := lrTauQ
  lrBeta := lrBetaQ
  lrTail := lrTailQ
  achievedDelta := fun _ => 0
  achievedEta := fun _ => 0
  logVolume := fun _ => 0

/-- A concrete control: `delta = 9/16` (so `sqrt delta = 3/4` exactly),
`eta = 51/100` (valid: `1/2 ≤ eta < sqrt delta`), `zeroTol = 1/1000`,
remaining fields at their source defaults. -/
def ctrlQ : LLLCtrl :=
  { delta := mkRat 9 16, eta := mkRat 51 100, reorthogTol := 0,
    zeroTol := mkRat 1 1000 }

/-- The rank-deficient example basis with parallel columns `(3,4)` and
`(6,8)` (the spec's MLLL scenario, scaled so that every norm taken during
the run is rational). -/
def Bex : Mat := fun r c =>
  if r = 0 ∧ c = 0 then 3 else if r = 1 ∧ c = 0 then 4
  else if r = 0 ∧ c = 1 then 6 else if r = 1 ∧ c = 1 then 8 else 0

/-- The identity matrix (as an everywhere-defined function matrix). -/
def idMat : Mat := fun r c => if r = c then 1 else 0

/-- The all-zero matrix. -/
def zeroMat : Mat := fun _ _ => 0

/-- Project a driver result onto its plain data `(rank, nullity,
numSwaps)`. -/
def runData (r : Except LLLErr (Option (LLLState × LLLInfo))) :
    Option (ℤ × ℕ × ℕ) :=
  match r with
  | .ok (some p) => some (p.2.rank, p.2.nullity, p.2.numSwaps)
  | _ => none

/-- Project a driver result onto entry `(i,j)` of the final basis. -/
def runBent (r : Except LLLErr (Option (LLLState × LLLInfo))) (i j : ℕ) :
    Option ℚ :=
  match r with
  | .ok (some p) => some (p.1.B i j)
  | _ => none

/-- The flat driver run on the rank-deficient example (no transform
tracking). -/
def runC1 : Except LLLErr (Option (LLLState × LLLInfo)) :=
  UnblockedAlg opsQ ctrlQ 2 2 Bex zeroMat zeroMat false false 10

/-- The flat driver run on the rank-deficient example with both transforms
tracked and initialized to the identity. -/
def runC2 : Except LLLErr (Option (LLLState × LLLInfo)) :=
  UnblockedAlg opsQ ctrlQ 2 2 Bex idMat idMat true true 10

/-- The state of the working set right after the driver initialization on
the rank-deficient example (used as a concrete `Step` input). -/
def stEx : LLLState :=
  (InitFirstColumn opsQ ctrlQ 2
    { B := Bex, U := idMat, UInv := idMat, QR := fun _ _ => 0,
      t := fun _ => 0, d := fun _ => 0 }).1

/-- Entry `(r,c)` of the product of the leading `n × n` blocks of two
function matrices. -/
def mulEntry (n : ℕ) (A B : Mat) (r c : ℕ) : ℚ :=
  ∑ i ∈ Finset.range n, A r i * B i c

/-- The pair `(U, V)` multiplies to the `n × n` identity:
`U · V = I` on the leading `n × n` block. -/
def IsInvPair (n : ℕ) (U V : Mat) : Prop :=
  ∀ r < n, ∀ c < n, mulEntry n U V r c = if r = c then 1 else 0

/-- Whenever the given driver result is a normal return, the final
transforms satisfy `U · UInv = I` on the leading `n × n` block. -/
def InvAtRun (n : ℕ) (r : Except LLLErr (Option (LLLState × LLLInfo))) : Prop :=
  ∀ p, r = .ok (some p) → IsInvPair n p.1.U p.1.UInv

/-- Claim C1's property, instantiated to a driver result: every column at
a position at or beyond the reported rank is zero ("zero columns sit at
the trailing positions"). -/
def ZeroColsTrailing (m n : ℕ)
    (r : Except LLLErr (Option (LLLState × LLLInfo))) : Prop :=
  ∀ p, r = .ok (some p) → ∀ j < n, (p.2.rank ≤ (j : ℤ)) → ∀ i < m, p.1.B i j = 0

/-- The leading-position variant: every column at a position strictly
before the reported nullity is zero ("zero columns sit at the leading
positions"). -/
def ZeroColsLeading (m n : ℕ)
    (r : Except LLLErr (Option (LLLState × LLLInfo))) : Prop :=
  ∀ p, r = .ok (some p) → ∀ j < n, j < p.2.nullity → ∀ i < m, p.1.B i j = 0

/-- Specification-level form of one reflector application to a single
column vector `v` (the description in claim C8 and spec section 4.2),
written with the standard rational operations: the head of the reflector
column is taken as `1`, the conjugated inner product is over rows
`i..m-1`, the subtraction affects rows `i..m-1`, position `i` is rescaled
by `d i`, and the reflector column is read from the unmodified `QR`. -/
def ReflectColSpec (m i : ℕ) (t : Vec) (d : Vec) (QR : Mat) (v : Vec) : Vec :=
  let head : Vec := fun r => if r = i then 1 else QR r i
  let ip := ∑ l ∈ Finset.range (m - i), head (i + l) * v (i + l)
  let v1 : Vec := fun r => if i ≤ r ∧ r < m then v r - t i * ip * head r else v r
  fun r => if r = i then v1 i * d i else v1 r

/-- Specification-level form of `ExpandQR`'s effect on column `k` alone:
start from `B(:,k)` (on the first `m` rows) and apply the reflector
descriptions `0..k-1`, `numOrthog` times over. -/
def ExpandQRColSpec (m k : ℕ) (B QR : Mat) (t : Vec) (d : Vec)
    (numOrthog : ℕ) : Vec :=
  let v0 : Vec := fun r => if r < m then B r k else QR r k
  (List.range numOrthog).foldl
    (fun v _ => (List.range k).foldl (fun v2 i => ReflectColSpec m i t d QR v2) v) v0

/-- The state carried by a `StepOut` outcome (either constructor). -/
def outSt : StepOut → LLLState
  | .next st => st
  | .done st _ => st

theorem qle_iff (x y : ℚ) : qle x y ↔ x ≤ y := by
  rw [qle, Rat.le_def]

theorem qlt_iff (x y : ℚ) : qlt x y ↔ x < y := by
  rw [qlt, Rat.lt_def]

theorem qneg_eq (x : ℚ) : qneg x = -x := by
  rw [qneg, Rat.mkRat_eq_div]
  push_cast
  rw [neg_div, Rat.num_div_den]

theorem qadd_eq (x y : ℚ) : qadd x y = x + y := (Rat.add_def' x y).symm

theorem qmul_eq (x y : ℚ) : qmul x y = x * y := (Rat.mul_eq_mkRat x y).symm

theorem qsub_eq (x y : ℚ) : qsub x y = x - y := by
  rw [qsub, qadd_eq, qneg_eq, sub_eq_add_neg]

theorem qdiv_eq (x y : ℚ) : qdiv x y = x / y := by
  rw [Rat.div_def', qdiv]
  split_ifs with h
  · have h0 : ((-y.num).toNat : ℤ) = -y.num := Int.toNat_of_nonneg (by omega)
    rw [Rat.mkRat_eq_divInt]
    push_cast [h0]
    rw [show (x.den : ℤ) * -y.num = -((x.den : ℤ) * y.num) by ring,
      Rat.divInt_neg, neg_neg]
  · have h0 : (y.num.toNat : ℤ) = y.num := Int.toNat_of_nonneg (by omega)
    rw [Rat.mkRat_eq_divInt]
    push_cast [h0]
    rfl

theorem qabs_eq (x : ℚ) : qabs x = |x| := by
  rw [qabs]
  split_ifs with h
  · rw [qneg_eq, abs_of_neg]
    rw [← not_le, ← Rat.num_nonneg]
    omega
  · rw [abs_of_nonneg]
    rw [← Rat.num_nonneg]
    omega

theorem qmax_eq (x y : ℚ) : qmax x y = max x y := by
  rw [qmax, max_def]
  simp only [qle_iff]

theorem dotc_eq (len : ℕ) (x y : Vec) :
    dotc len x y = ∑ l ∈ Finset.range len, x l * y l := by
  induction len with
  | zero => simp [dotc]
  | succ n ih =>
    rw [Finset.sum_range_succ, ← ih, dotc, dotc, List.range_succ]
    simp only [List.map_append, List.foldr_append, List.map_cons, List.map_nil,
      List.foldr_cons, List.foldr_nil]
    rw [qadd_eq, qmul_eq, add_zero]
    have aux : ∀ (L : List ℚ) (a b : ℚ), L.foldr qadd (a + b) = L.foldr qadd a + b := by
      intro L
      induction L with
      | nil => intro a b; rfl
      | cons h tl ihl => intro a b; simp only [List.foldr_cons, ihl, qadd_eq]; ring
    have h2 := aux ((List.range n).map (fun l => qmul (x l) (y l))) 0 (x n * y n)
    rw [zero_add] at h2
    exact h2

theorem roundQ_intCast (z : ℤ) : roundQ (z : ℚ) = z := by
  rw [roundQ]
  rcases le_or_lt 0 z with h | h
  · rw [if_pos]
    · have h1 : (2 * (z:ℚ).num.toNat + (z:ℚ).den) / (2 * (z:ℚ).den) = z.toNat := by
        simp only [Rat.num_intCast, Rat.den_intCast]
        rw [Nat.mul_add_div (by omega)]
        omega
      rw [h1, Rat.mkRat_one]
      push_cast [Int.toNat_of_nonneg h]
      rfl
    · simpa using h
  · rw [if_neg]
    · have h1 : (2 * (-(z:ℚ).num).toNat + (z:ℚ).den) / (2 * (z:ℚ).den) = (-z).toNat := by
        simp only [Rat.num_intCast, Rat.den_intCast]
        rw [Nat.mul_add_div (by omega)]
        omega
      rw [h1, Rat.mkRat_one, qneg_eq]
      push_cast [Int.toNat_of_nonneg (by omega : (0:ℤ) ≤ -z)]
      push_cast
      ring
    · simpa using h

theorem roundQ_eq_intCast (x : ℚ) : ∃ z : ℤ, roundQ x = (z : ℚ) := by
  rw [roundQ]
  split_ifs with h
  · exact ⟨((2 * x.num.toNat + x.den) / (2 * x.den) : ℕ), by rw [Rat.mkRat_one]⟩
  · refine ⟨-((2 * (-x.num).toNat + x.den) / (2 * x.den) : ℕ), ?_⟩
    rw [Rat.mkRat_one, qneg_eq]
    push_cast
    rfl

theorem roundQ_idem (x : ℚ) : roundQ (roundQ x) = roundQ x := by
  obtain ⟨z, hz⟩ := roundQ_eq_intCast x
  rw [hz, roundQ_intCast]

/-- Extract the state carried by a `StepIter` outcome (either branch),
with an all-zero fallback. -/
def outState (r : Except LLLErr StepOut) : LLLState :=
  match r with
  | .ok (.done st _) => st
  | .ok (.next st) => st
  | .error _ =>
    { B := zeroMat, U := zeroMat, UInv := zeroMat, QR := zeroMat,
      t := fun _ => 0, d := fun _ => 0 }

/-- Extract the `zeroVector` flag of a `.done` outcome. -/
def outFlag (r : Except LLLErr StepOut) : Bool :=
  match r with
  | .ok (.done _ b) => b
  | _ => false

/-- The state reached after the first `Step` iteration at `k = 1` on the
rank-deficient example (the iteration that size-reduces column 1 of `Bex`
to zero and loops). -/
def stEx2 : LLLState := outState (StepIter opsQ ctrlQ 2 2 1 false false stEx)

/-- A variant of the concrete primitives whose finiteness test always
fails (driving the overflow guard). -/
def opsBad : ScalarOps := { opsQ with isFinite := fun _ => false }

/-- A concrete working-set state with identity `QR` (the Lovász test at
`k = 1` passes on it). -/
def stL : LLLState :=
  { B := Bex, U := idMat, UInv := idMat, QR := idMat,
    t := fun _ => 0, d := fun _ => 0 }

theorem updEnt_same (A : Mat) (i j : ℕ) (v : ℚ) : updEnt A i j v i j = v := by
  simp [updEnt]

theorem updEnt_of_ne (A : Mat) (i j r c : ℕ) (v : ℚ) (h : ¬(r = i ∧ c = j)) :
    updEnt A i j v r c = A r c := by
  simp [updEnt, h]

theorem updV_same (x : Vec) (i : ℕ) (v : ℚ) : updV x i v i = v := by
  simp [updV]

theorem updV_of_ne (x : Vec) (i l : ℕ) (v : ℚ) (h : l ≠ i) : updV x i v l = x l := by
  simp [updV, h]

/-- Claim C7: after every call `HouseholderStep(k)`, `d[k]` is exactly `-1`
or `+1` and the real part of `QR(k,k)` is non-negative; `d[k] = -1` and the
diagonal entry is negated precisely when `LeftReflector` left a value with
negative real part (in which case the entry holds the negated value, else
the value itself). -/
theorem C7_householder_sign (ops : ScalarOps) (m k : ℕ) (QR : Mat) (t : Vec) (d : Vec) :
    (((HouseholderStep ops m k QR t d).2.2 k = 1 ∨
      (HouseholderStep ops m k QR t d).2.2 k = -1) ∧
     0 ≤ rePart ((HouseholderStep ops m k QR t d).1 k k)) ∧
    (((HouseholderStep ops m k QR t d).2.2 k = -1 ↔
      rePart (ops.lrBeta (QR k k) (m - (k + 1)) (fun l => QR (k + 1 + l) k)) < 0) ∧
     (rePart (ops.lrBeta (QR k k) (m - (k + 1)) (fun l => QR (k + 1 + l) k)) < 0 →
      (HouseholderStep ops m k QR t d).1 k k =
        -(ops.lrBeta (QR k k) (m - (k + 1)) (fun l => QR (k + 1 + l) k))) ∧
     (0 ≤ rePart (ops.lrBeta (QR k k) (m - (k + 1)) (fun l => QR (k + 1 + l) k)) →
      (HouseholderStep ops m k QR t d).1 k k =
        ops.lrBeta (QR k k) (m - (k + 1)) (fun l => QR (k + 1 + l) k))) := by
  rw [HouseholderStep]
  simp only [updEnt_same, qlt_iff, qneg_eq, rePart]
  split_ifs with h
  · simp only [updEnt_same, updV_same, rePart]
    exact ⟨⟨Or.inr trivial, by linarith⟩, ⟨fun _ => h, fun _ => trivial⟩,
      fun _ => trivial, fun hc => absurd h (not_lt.mpr hc)⟩
  · simp only [updEnt_same, updV_same, rePart]
    push_neg at h
    exact ⟨⟨Or.inl trivial, h⟩, ⟨fun h1 => absurd h1 (by norm_num),
      fun hc => absurd hc (not_lt.mpr h)⟩, fun hc => absurd hc (not_lt.mpr h),
      fun _ => trivial⟩

theorem deepScan_eq_noFallback (ops : ScalarOps) (ctrl : LLLCtrl) (m n k : ℕ)
    (fU fV : Bool) (uT : ℚ) :
    ∀ (cnt i : ℕ) (oN pN : ℚ) (st : LLLState) (nullity : ℕ),
      DeepScan ops ctrl m n k fU fV uT cnt i oN pN st nullity =
      DeepScanNF ops ctrl m n k fU fV uT cnt i oN pN st nullity := by
  intro cnt
  induction cnt with
  | zero => intro i oN pN st nullity; rfl
  | succ c ih =>
    intro i oN pN st nullity
    simp only [DeepScan, DeepScanNF]
    by_cases hins : qlt pN (qmul (ops.sqrtF ctrl.delta) (rePart (st.QR i i)))
    · rw [if_pos hins, if_pos hins]
    · rw [if_neg hins, if_neg hins,
        if_pos (Or.inr (show alwaysRecomputeNorms = true from rfl))]
      exact ih _ _ _ _ _

theorem deepLoop_eq_noFallback (ops : ScalarOps) (ctrl : LLLCtrl) (m n : ℕ)
    (fU fV : Bool) :
    ∀ (fuel : ℕ) (s : LLLState × ℕ × ℕ × ℕ),
      UnblockedDeepLoop ops ctrl m n fU fV fuel s =
      UnblockedDeepLoopNF ops ctrl m n fU fV fuel s := by
  intro fuel
  induction fuel with
  | zero => intro s; rfl
  | succ f ih =>
    intro s
    obtain ⟨st, k, nullity, numSwaps⟩ := s
    simp only [UnblockedDeepLoop, UnblockedDeepLoopNF]
    split_ifs with hk
    · cases hstep : Step ops ctrl m n k fU fV (f + 1) st with
      | error e => rfl
      | ok o =>
        cases o with
        | none => rfl
        | some p =>
          obtain ⟨st', zeroVector⟩ := p
          simp only [deepScan_eq_noFallback]
          exact ih _
    · rfl

/-- Claim C9: with `alwaysRecomputeNorms` hard-wired to `true`, the
multiplicative downdate branch of the deep-insertion driver is dead: after
every position that does not trigger an insertion the partial norm is
recomputed from `QR`, so `UnblockedDeepAlg` is extensionally equal to the
variant `UnblockedDeepAlgNF` in which the LAWN-176 fallback test has been
removed. -/
theorem C9_deep_always_recomputes (ops : ScalarOps) (ctrl : LLLCtrl) (m n : ℕ)
    (B U UInv : Mat) (fU fV : Bool) (fuel : ℕ) :
    UnblockedDeepAlg ops ctrl m n B U UInv fU fV fuel =
    UnblockedDeepAlgNF ops ctrl m n B U UInv fU fV fuel := by
  simp only [UnblockedDeepAlg, UnblockedDeepAlgNF, deepLoop_eq_noFallback]

/-- Claim C5: `Step(k)` returns `true` exactly when the 2-norm of `B(:,k)`
taken right after `ExpandQR` is at most `ctrl.zeroTol` (guards passing);
then it zeroes `B(:,k)` and `QR(:,k)` and sets `t[k] = 1/2`, `d[k] = 1`;
in every other terminating case it ends by calling `HouseholderStep(k)`
and returns `false`.  The first conjunct lifts the per-iteration
characterization to the `while(true)` loop. -/
theorem C5_step_zero_return (ops : ScalarOps) (ctrl : LLLCtrl) (m n k : ℕ)
    (fU fV : Bool) :
    (∀ (fuel : ℕ) (st : LLLState) (r : LLLState × Bool),
       Step ops ctrl m n k fU fV fuel st = .ok (some r) →
       ∃ s, StepIter ops ctrl m n k fU fV s = .ok (.done r.1 r.2)) ∧
    (∀ (s st' : LLLState) (b : Bool),
       StepIter ops ctrl m n k fU fV s = .ok (.done st' b) →
       (b = true ↔ ops.nrm2 m (colOf s.B k) ≤ ctrl.zeroTol) ∧
       (b = true →
         st' = { s with
           B := zeroColM m s.B k,
           QR := zeroColM m (ExpandQR m k s.B s.QR s.t s.d ctrl.numOrthog) k,
           t := updV s.t k (mkRat 1 2), d := updV s.d k 1 }) ∧
       (b = false →
         ctrl.zeroTol < ops.nrm2 m (colOf s.B k) ∧
         ∃ st1,
           st1 = (if ctrl.weak then
                    WeakReduce ctrl m n k fU fV
                      { s with QR := ExpandQR m k s.B s.QR s.t s.d ctrl.numOrthog }
                  else
                    StandardReduce ctrl m n k fU fV
                      { s with QR := ExpandQR m k s.B s.QR s.t s.d ctrl.numOrthog }) ∧
           ctrl.reorthogTol * ops.nrm2 m (colOf s.B k) < ops.nrm2 m (colOf st1.B k) ∧
           st' = { st1 with
             QR := (HouseholderStep ops m k st1.QR st1.t st1.d).1,
             t := (HouseholderStep ops m k st1.QR st1.t st1.d).2.1,
             d := (HouseholderStep ops m k st1.QR st1.t st1.d).2.2 })) := by
  constructor
  · intro fuel
    induction fuel with
    | zero => intro st r h; simp [Step] at h
    | succ f ih =>
      intro st r h
      rw [Step] at h
      cases hit : StepIter ops ctrl m n k fU fV st with
      | error e => rw [hit] at h; simp at h
      | ok o =>
        cases o with
        | done st' b =>
          rw [hit] at h
          simp only [Except.ok.injEq, Option.some.injEq] at h
          exact ⟨st, by rw [hit, ← h]⟩
        | next st' =>
          rw [hit] at h
          exact ih st' r h
  · intro s st' b h
    rcases Bool.eq_false_or_eq_true ctrl.weak with hw | hw
    all_goals rw [StepIter] at h
    all_goals simp only [hw, Bool.false_eq_true, Bool.true_eq_false, if_false,
      if_true, reduceIte] at h ⊢
    all_goals split_ifs at h with h1 h2 h3 h4 h5 h6
    all_goals simp only [Except.ok.injEq, StepOut.done.injEq, reduceCtorEq] at h
    all_goals obtain ⟨hst, hb⟩ := h
    all_goals subst hb
    all_goals
      first
        | exact ⟨⟨fun _ => (qle_iff _ _).mp h3, fun _ => rfl⟩, fun _ => hst.symm,
            fun hf => by simp at hf⟩
        | (have hgt : ctrl.zeroTol < ops.nrm2 m (colOf s.B k) :=
             lt_of_not_le ((not_iff_not.mpr (qle_iff _ _)).mp h3)
           refine ⟨⟨fun ht => by simp at ht, fun hc => absurd hc (not_le.mpr hgt)⟩,
             fun ht => by simp at ht, fun _ => ⟨hgt, _, rfl, ?_, hst.symm⟩⟩
           have h6' := (qlt_iff _ _).mp h6
           rwa [qmul_eq] at h6')

set_option maxRecDepth 100000 in
/-- Witness for C5 at a concrete input: on the rank-deficient example, the
second `Step` iteration at `k = 1` returns through the zero branch, and
the characterization theorem yields the norm bound. -/
theorem C5_step_zero_return_witness :
    outFlag (StepIter opsQ ctrlQ 2 2 1 false false stEx2) = true ∧
    opsQ.nrm2 2 (colOf stEx2.B 1) ≤ ctrlQ.zeroTol := by
  have h : StepIter opsQ ctrlQ 2 2 1 false false stEx2 =
      .ok (.done (outState (StepIter opsQ ctrlQ 2 2 1 false false stEx2)) true) := by
    rfl
  have hf : outFlag (StepIter opsQ ctrlQ 2 2 1 false false stEx2) = true := by decide
  exact ⟨hf, (((C5_step_zero_return opsQ ctrlQ 2 2 1 false false).2 _ _ _ h).1).mp rfl⟩

/-- Claim C6: `Step` raises an error exactly when a column-norm evaluation
is non-finite (overflow) or exceeds `1/eps` (precision exhausted); the two
guards are applied to the norm taken before size-reduction and to the norm
taken after it, in every iteration of the loop, with no silent
continuation.  The first conjunct says the loop errors only through an
iteration's guards; the second characterizes exactly when an iteration
errors and with which error. -/
theorem C6_step_error_guards (ops : ScalarOps) (ctrl : LLLCtrl) (m n k : ℕ)
    (fU fV : Bool) :
    (∀ (fuel : ℕ) (st : LLLState) (e : LLLErr),
       Step ops ctrl m n k fU fV fuel st = .error e →
       ∃ s, StepIter ops ctrl m n k fU fV s = .error e) ∧
    (∀ (s : LLLState) (e : LLLErr),
       StepIter ops ctrl m n k fU fV s = .error e ↔
         ((ops.isFinite (ops.nrm2 m (colOf s.B k)) = false ∧ e = .overflow) ∨
          (¬ ops.isFinite (ops.nrm2 m (colOf s.B k)) = false ∧
            1 / ops.eps < ops.nrm2 m (colOf s.B k) ∧ e = .precisionExhausted) ∨
          (¬ ops.isFinite (ops.nrm2 m (colOf s.B k)) = false ∧
            ¬ 1 / ops.eps < ops.nrm2 m (colOf s.B k) ∧
            ¬ ops.nrm2 m (colOf s.B k) ≤ ctrl.zeroTol ∧
            ((ops.isFinite (ops.nrm2 m (colOf
                ((if ctrl.weak then
                    WeakReduce ctrl m n k fU fV
                      { s with QR := ExpandQR m k s.B s.QR s.t s.d ctrl.numOrthog }
                  else
                    StandardReduce ctrl m n k fU fV
                      { s with QR := ExpandQR m k s.B s.QR s.t s.d ctrl.numOrthog }).B)
                k)) = false ∧ e = .overflow) ∨
             (¬ ops.isFinite (ops.nrm2 m (colOf
                ((if ctrl.weak then
                    WeakReduce ctrl m n k fU fV
                      { s with QR := ExpandQR m k s.B s.QR s.t s.d ctrl.numOrthog }
                  else
                    StandardReduce ctrl m n k fU fV
                      { s with QR := ExpandQR m k s.B s.QR s.t s.d ctrl.numOrthog }).B)
                k)) = false ∧
              1 / ops.eps < ops.nrm2 m (colOf
                ((if ctrl.weak then
                    WeakReduce ctrl m n k fU fV
                      { s with QR := ExpandQR m k s.B s.QR s.t s.d ctrl.numOrthog }
                  else
                    StandardReduce ctrl m n k fU fV
                      { s with QR := ExpandQR m k s.B s.QR s.t s.d ctrl.numOrthog }).B)
                k) ∧ e = .precisionExhausted))))) := by
  constructor
  · intro fuel
    induction fuel with
    | zero => intro st e h; simp [Step] at h
    | succ f ih =>
      intro st e h
      rw [Step] at h
      cases hit : StepIter ops ctrl m n k fU fV st with
      | error e' =>
        rw [hit] at h
        simp only [Except.error.injEq] at h
        exact ⟨st, by rw [hit, h]⟩
      | ok o =>
        cases o with
        | done st' b => rw [hit] at h; simp at h
        | next st' => rw [hit] at h; exact ih st' e h
  · intro s e
    rcases Bool.eq_false_or_eq_true ctrl.weak with hw | hw
    all_goals rw [StepIter]
    all_goals simp only [hw, Bool.false_eq_true, Bool.true_eq_false, if_false,
      if_true, reduceIte, qlt_iff, qle_iff, qdiv_eq, qmul_eq]
    all_goals constructor
    all_goals intro h
    case mp =>
      split_ifs at h with h1 h2 h3 h4 h5 h6
      all_goals simp only [Except.error.injEq, reduceCtorEq] at h
      · exact Or.inl ⟨h1, h.symm⟩
      · exact Or.inr (Or.inl ⟨h1, h2, h.symm⟩)
      · exact Or.inr (Or.inr ⟨h1, h2, h3, Or.inl ⟨h4, h.symm⟩⟩)
      · exact Or.inr (Or.inr ⟨h1, h2, h3, Or.inr ⟨h4, h5, h.symm⟩⟩)
    case mp =>
      split_ifs at h with h1 h2 h3 h4 h5 h6
      all_goals simp only [Except.error.injEq, reduceCtorEq] at h
      · exact Or.inl ⟨h1, h.symm⟩
      · exact Or.inr (Or.inl ⟨h1, h2, h.symm⟩)
      · exact Or.inr (Or.inr ⟨h1, h2, h3, Or.inl ⟨h4, h.symm⟩⟩)
      · exact Or.inr (Or.inr ⟨h1, h2, h3, Or.inr ⟨h4, h5, h.symm⟩⟩)
    all_goals
      rcases h with ⟨hfin, he⟩ | ⟨hfin, hlt, he⟩ |
        ⟨hfin, hnlt, hz, ⟨hfin2, he⟩ | ⟨hfin2, hlt2, he⟩⟩
    all_goals subst he
    all_goals split_ifs with h1 h2 h3 h4 h5 h6
    all_goals
      first
        | rfl
        | exact absurd hfin h1
        | exact absurd h1 hfin
        | exact absurd hlt h2
        | exact absurd h2 hnlt
        | exact absurd h3 hz
        | exact absurd hfin2 h4
        | exact absurd h4 hfin2
        | exact absurd hlt2 h5
        | (exact absurd h5 (by intro hc; exact absurd hc (by exact fun hcc => hfin2 rfl)))

/-- Witness for C6 at a concrete input: with a finiteness test that always
fails, the first iteration of `Step` raises the overflow error. -/
theorem C6_step_error_guards_witness :
    StepIter opsBad ctrlQ 2 2 1 false false stEx = .error .overflow :=
  ((C6_step_error_guards opsBad ctrlQ 2 2 1 false false).2 stEx .overflow).mpr
    (Or.inl ⟨rfl, rfl⟩)

/-- Claim C10: with `reorthogTol = 0` and `zeroTol ≥ 0` (and a positive
eps), `Step(k)` terminates whenever the norm guards do not fail: the loop
re-enters only when the post-reduction norm is not positive, in which case
the next iteration either raises a guard error or fires the zero test and
returns `true`; consequently `Step` with any fuel of at least `2` equals
`Step` with fuel `2` — the size-reduction body executes at most twice. -/
theorem C10_step_terminates (ops : ScalarOps) (ctrl : LLLCtrl) (m n k : ℕ)
    (fU fV : Bool) (he : 0 < ops.eps) (hr : ctrl.reorthogTol = 0)
    (hz : 0 ≤ ctrl.zeroTol) :
    (∀ (st st' : LLLState),
       StepIter ops ctrl m n k fU fV st = .ok (.next st') →
       ops.nrm2 m (colOf st'.B k) ≤ 0) ∧
    (∀ (st st' : LLLState),
       StepIter ops ctrl m n k fU fV st = .ok (.next st') →
       (∃ e, StepIter ops ctrl m n k fU fV st' = .error e) ∨
       (∃ st2, StepIter ops ctrl m n k fU fV st' = .ok (.done st2 true))) ∧
    (∀ (st : LLLState) (fuel : ℕ), 2 ≤ fuel →
       Step ops ctrl m n k fU fV fuel st = Step ops ctrl m n k fU fV 2 st) := by
  have ha : ∀ (st st' : LLLState),
      StepIter ops ctrl m n k fU fV st = .ok (.next st') →
      ops.nrm2 m (colOf st'.B k) ≤ 0 := by
    intro st st' h
    rcases Bool.eq_false_or_eq_true ctrl.weak with hw | hw
    all_goals rw [StepIter] at h
    all_goals simp only [hw, Bool.false_eq_true, Bool.true_eq_false, if_false,
      if_true, reduceIte] at h
    all_goals split_ifs at h with h1 h2 h3 h4 h5 h6
    all_goals simp only [Except.ok.injEq, reduceCtorEq, StepOut.next.injEq] at h
    all_goals subst h
    all_goals
      (refine not_lt.mp ?_
       intro hc
       exact h6 ((qlt_iff _ _).mpr (by rw [qmul_eq, hr, zero_mul]; exact hc)))
  have hb : ∀ (st st' : LLLState),
      StepIter ops ctrl m n k fU fV st = .ok (.next st') →
      (∃ e, StepIter ops ctrl m n k fU fV st' = .error e) ∨
      (∃ st2, StepIter ops ctrl m n k fU fV st' = .ok (.done st2 true)) := by
    intro st st' h
    have hnew := ha st st' h
    by_cases hfin : ops.isFinite (ops.nrm2 m (colOf st'.B k)) = false
    · left
      exact ⟨.overflow, by rw [StepIter, if_pos hfin]⟩
    · right
      have hq2 : ¬ qlt (qdiv 1 ops.eps) (ops.nrm2 m (colOf st'.B k)) := by
        intro hc
        have hc' := (qlt_iff _ _).mp hc
        rw [qdiv_eq] at hc'
        have hepos : 0 < 1 / ops.eps := by positivity
        linarith
      have hq3 : qle (ops.nrm2 m (colOf st'.B k)) ctrl.zeroTol :=
        (qle_iff _ _).mpr (le_trans hnew hz)
      exact ⟨_, by rw [StepIter, if_neg hfin, if_neg hq2, if_pos hq3]⟩
  have hstep : ∀ (g : ℕ) (s : LLLState),
      Step ops ctrl m n k fU fV (g + 1) s =
        (match StepIter ops ctrl m n k fU fV s with
         | .error e => .error e
         | .ok (.done st2 b) => .ok (some (st2, b))
         | .ok (.next st2) => Step ops ctrl m n k fU fV g st2) := by
    intro g s
    rfl
  refine ⟨ha, hb, ?_⟩
  intro st fuel hf
  obtain ⟨f, rfl⟩ : ∃ f, fuel = f + 2 := ⟨fuel - 2, by omega⟩
  show Step ops ctrl m n k fU fV (f + 1 + 1) st = Step ops ctrl m n k fU fV (1 + 1) st
  rw [hstep (f + 1) st, hstep 1 st]
  cases hit : StepIter ops ctrl m n k fU fV st with
  | error e => rfl
  | ok o =>
    cases o with
    | done st2 b => rfl
    | next st' =>
      show Step ops ctrl m n k fU fV (f + 1) st' = Step ops ctrl m n k fU fV 1 st'
      rw [hstep f st', hstep 0 st']
      rcases hb st st' hit with ⟨e, he2⟩ | ⟨st2, hd2⟩
      · rw [he2]
      · rw [hd2]

/-- Witness for C10 at a concrete input: on the rank-deficient example,
`Step` at `k = 1` with fuel 5 equals `Step` with fuel 2. -/
theorem C10_step_terminates_witness :
    Step opsQ ctrlQ 2 2 1 false false 5 stEx = Step opsQ ctrlQ 2 2 1 false false 2 stEx :=
  (C10_step_terminates opsQ ctrlQ 2 2 1 false false
    ((qlt_iff 0 opsQ.eps).mp (by decide)) rfl
    ((qle_iff 0 ctrlQ.zeroTol).mp (by decide))).2.2 stEx 5 (by norm_num)

/-- Claim C3: the driver body after `Step(k)`.  With
`left = sqrt(delta) * Re R(k-1,k-1)` and
`right = SafeNorm(Re R(k,k), R(k-1,k))`: if `left ≤ right` then `k` is
incremented and nothing changes; otherwise `numSwaps` is incremented and
columns `k-1` and `k` of `B` are swapped (and of `U`, and the rows of
`UInv`, when tracked): for `k ≠ 1` the result is exactly the swapped state
with `k-1`; for `k = 1`, `k` stays `1`, column 0 of the swapped state is
re-initialized (`ExpandQR(0)`, `HouseholderStep(0)`), and the nullity is
reset by re-checking the new column 0 against `zeroTol`. -/
theorem C3_lovasz_swap_body (ops : ScalarOps) (ctrl : LLLCtrl) (m n : ℕ)
    (fU fV : Bool) (st : LLLState) (k nullity numSwaps : ℕ) (hk : 1 ≤ k) :
    (ops.sqrtF ctrl.delta * rePart (st.QR (k - 1) (k - 1)) ≤
        ops.safeNorm (rePart (st.QR k k)) (st.QR (k - 1) k) →
      LovaszTestAndSwap ops ctrl m n fU fV st k nullity numSwaps =
        (st, k + 1, nullity, numSwaps)) ∧
    (ops.safeNorm (rePart (st.QR k k)) (st.QR (k - 1) k) <
        ops.sqrtF ctrl.delta * rePart (st.QR (k - 1) (k - 1)) →
      (LovaszTestAndSwap ops ctrl m n fU fV st k nullity numSwaps).2.2.2 =
          numSwaps + 1 ∧
      (k = 1 →
        (LovaszTestAndSwap ops ctrl m n fU fV st k nullity numSwaps).2.1 = 1 ∧
        (LovaszTestAndSwap ops ctrl m n fU fV st k nullity numSwaps).1 =
          (InitFirstColumn ops ctrl m
            { st with
              B := ColSwap st.B (k - 1) k,
              U := if fU then ColSwap st.U (k - 1) k else st.U,
              UInv := if fV then RowSwap st.UInv (k - 1) k else st.UInv }).1 ∧
        (LovaszTestAndSwap ops ctrl m n fU fV st k nullity numSwaps).2.2.1 =
          (if ops.frobNorm m (colOf (ColSwap st.B (k - 1) k) 0) ≤ ctrl.zeroTol
           then 1 else 0)) ∧
      (k ≠ 1 →
        LovaszTestAndSwap ops ctrl m n fU fV st k nullity numSwaps =
          ({ st with
             B := ColSwap st.B (k - 1) k,
             U := if fU then ColSwap st.U (k - 1) k else st.U,
             UInv := if fV then RowSwap st.UInv (k - 1) k else st.UInv },
           k - 1, nullity, numSwaps + 1))) := by
  have hinit2 : ∀ s : LLLState, (InitFirstColumn ops ctrl m s).2 =
      (if ops.frobNorm m (colOf s.B 0) ≤ ctrl.zeroTol then 1 else 0) := by
    intro s
    rw [InitFirstColumn]
    split_ifs with h1 h2 h3
    · rfl
    · exact absurd ((qle_iff _ _).mp h1) h2
    · exact absurd ((qle_iff _ _).mpr h3) h1
    · rfl
  constructor
  · intro hle
    rw [LovaszTestAndSwap, if_pos]
    rw [← qmul_eq, ← qle_iff] at hle
    exact hle
  · intro hgt
    have hq : ¬ qle (qmul (ops.sqrtF ctrl.delta) (rePart (st.QR (k - 1) (k - 1))))
        (ops.safeNorm (rePart (st.QR k k)) (st.QR (k - 1) k)) := by
      rw [qle_iff, qmul_eq]
      exact not_le.mpr hgt
    rw [LovaszTestAndSwap, if_neg hq]
    by_cases hk1 : k = 1
    · rw [if_pos hk1]
      exact ⟨rfl, fun _ => ⟨rfl, rfl, hinit2 _⟩, fun hne => absurd hk1 hne⟩
    · rw [if_neg hk1]
      exact ⟨rfl, fun h1 => absurd h1 hk1, fun _ => rfl⟩

/-- Witness for C3 at a concrete input: with identity `QR`, the Lovász
test at `k = 1` passes and the body just increments `k`. -/
theorem C3_lovasz_swap_body_witness :
    LovaszTestAndSwap opsQ ctrlQ 2 2 false false stL 1 0 0 = (stL, 2, 0, 0) :=
  (C3_lovasz_swap_body opsQ ctrlQ 2 2 false false stL 1 0 0 (by norm_num)).1
    (by rw [← qmul_eq, ← qle_iff]; decide)

theorem roundQ_zero : roundQ 0 = 0 := by decide

/-- Claim C4: the standard-mode scan runs `i = k-1` down to `0`; at each
index it sets `x[i] = 0` when `|QR(i,i)| ≤ zeroTol`, else forms
`chi = QR(i,k)/QR(i,i)` and, exactly when `|Re chi| > eta` or
`|Im chi| > eta`, sets `x[i] = Round(chi)` and subtracts `chi` times the
first `i+1` rows of column `i` from column `k` (only those rows, and only
column `k` is written); afterwards the accumulated update is applied in
single passes (`Gemv` on `B` and on `U` when tracked, `Geru` on `UInv`
when tracked), and every coefficient satisfies `x[i] = Round(x[i])`. -/
theorem C4_standard_size_reduction (ctrl : LLLCtrl) (k : ℕ) :
    (∀ (cnt : ℕ) (QR : Mat) (r c : ℕ), c ≠ k →
       (SizeReduceScan ctrl k cnt QR).1 r c = QR r c) ∧
    (∀ (cnt : ℕ) (QR : Mat) (r : ℕ), cnt ≤ r →
       (SizeReduceScan ctrl k cnt QR).1 r k = QR r k) ∧
    (∀ (cnt : ℕ) (QR : Mat) (i : ℕ),
       roundQ ((SizeReduceScan ctrl k cnt QR).2 i) =
         (SizeReduceScan ctrl k cnt QR).2 i) ∧
    (∀ (i : ℕ) (QR : Mat),
       SizeReduceScan ctrl k (i + 1) QR =
         (let pr : Mat × ℚ :=
            if |QR i i| ≤ ctrl.zeroTol then (QR, 0)
            else
              let chi0 := QR i k / QR i i
              if ctrl.eta < |rePart chi0| ∨ ctrl.eta < |imPart chi0| then
                (axpyColPrefix (i + 1) (-(roundQ chi0)) i k QR, roundQ chi0)
              else (QR, 0)
          let rest := SizeReduceScan ctrl k i pr.1
          (rest.1, updV rest.2 i pr.2))) ∧
    (∀ (len : ℕ) (a : ℚ) (src dst : ℕ) (A : Mat) (r c : ℕ),
       axpyColPrefix len a src dst A r c =
         (if c = dst ∧ r < len then A r dst + a * A r src else A r c)) ∧
    (∀ (len : ℕ) (x : Vec) (A : Mat) (r c : ℕ),
       GemvColUpdate len k x A r c =
         (if c = k ∧ r < len then
            A r k - ∑ i ∈ Finset.range k, x i * A r i
          else A r c)) ∧
    (∀ (n : ℕ) (x : Vec) (A : Mat) (r c : ℕ),
       GeruRowUpdate n k x A r c =
         (if r < k ∧ c < n then A r c + x r * A k c else A r c)) ∧
    (∀ (m n : ℕ) (fU fV : Bool) (st : LLLState),
       StandardReduce ctrl m n k fU fV st =
         { st with
           QR := (SizeReduceScan ctrl k k st.QR).1,
           B := GemvColUpdate m k (SizeReduceScan ctrl k k st.QR).2 st.B,
           U := if fU then GemvColUpdate n k (SizeReduceScan ctrl k k st.QR).2 st.U
                else st.U,
           UInv := if fV then GeruRowUpdate n k (SizeReduceScan ctrl k k st.QR).2 st.UInv
                   else st.UInv }) := by
  have hframe : ∀ (cnt : ℕ) (QR : Mat) (r c : ℕ), c ≠ k →
      (SizeReduceScan ctrl k cnt QR).1 r c = QR r c := by
    intro cnt
    induction cnt with
    | zero => intro QR r c _; rfl
    | succ i ih =>
      intro QR r c hc
      simp only [SizeReduceScan]
      rw [ih _ r c hc]
      split_ifs with h1 h2
      · rfl
      · simp [axpyColPrefix, hc]
      · rfl
  refine ⟨hframe, ?_, ?_, ?_, ?_, ?_, ?_, ?_⟩
  · intro cnt
    induction cnt with
    | zero => intro QR r _; rfl
    | succ i ih =>
      intro QR r hr
      simp only [SizeReduceScan]
      rw [ih _ r (by omega)]
      split_ifs with h1 h2
      · rfl
      · have hr2 : ¬ r < i + 1 := by omega
        simp [axpyColPrefix, hr2]
      · rfl
  · intro cnt
    induction cnt with
    | zero => intro QR i; exact roundQ_zero
    | succ j ih =>
      intro QR i
      by_cases hij : i = j
      · subst hij
        simp only [SizeReduceScan, updV_same]
        split_ifs with h1 h2
        · exact roundQ_zero
        · exact roundQ_idem _
        · exact roundQ_zero
      · simp only [SizeReduceScan, updV_of_ne _ _ _ _ hij]
        exact ih _ i
  · intro i QR
    rw [SizeReduceScan]
    simp only [qle_iff, qlt_iff, qdiv_eq, qneg_eq, qabs_eq, imPart, rePart]
  · intro len a src dst A r c
    simp only [axpyColPrefix]
    split_ifs with h
    · rw [qadd_eq, qmul_eq]
    · rfl
  · intro len x A r c
    simp only [GemvColUpdate]
    split_ifs with h
    · rw [qsub_eq, dotc_eq]
    · rfl
  · intro n x A r c
    simp only [GeruRowUpdate]
    split_ifs with h
    · rw [qadd_eq, qmul_eq]
    · rfl
  · intro m n fU fV st
    rfl

/-- Witness for C4 at a concrete input: the scan never writes outside
column `k` (here at `k = 1`, entry `(0,0)` of `QR` is untouched). -/
theorem C4_standard_size_reduction_witness :
    (SizeReduceScan ctrlQ 1 1 stEx.QR).1 0 0 = stEx.QR 0 0 :=
  (C4_standard_size_reduction ctrlQ 1).1 1 stEx.QR 0 0 (by decide)

theorem applyReflector_frame (m i k : ℕ) (t : Vec) (d : Vec) (Q : Mat)
    (hik : i ≠ k) (r c : ℕ) (hc : c ≠ k) :
    ApplyReflector m i k t d Q r c = Q r c := by
  have h3 : ¬ (c = k ∧ i ≤ r ∧ r < m) := fun hx => hc hx.1
  have h2 : ¬ (r = i ∧ c = k) := fun hx => hc hx.2
  by_cases hri : r = i ∧ c = i
  · obtain ⟨hr1, hc1⟩ := hri
    subst hr1
    subst hc1
    simp [ApplyReflector, updEnt, rePart]
  · simp [ApplyReflector, updEnt, rePart, hri, h2, h3]

theorem applyReflector_col (m i k : ℕ) (t : Vec) (d : Vec) (QR Q : Mat)
    (hik : i ≠ k) (hframe : ∀ r c, c ≠ k → Q r c = QR r c) (r : ℕ) :
    ApplyReflector m i k t d Q r k = ReflectColSpec m i t d QR (colOf Q k) r := by
  have hent1 : ∀ rr : ℕ, updEnt Q i i 1 rr i = (if rr = i then 1 else QR rr i) := by
    intro rr
    by_cases hl : rr = i
    · simp [updEnt, hl]
    · simp only [updEnt, hl, false_and, if_false, if_neg hl]
      exact hframe rr i hik
  have hent2 : ∀ rr : ℕ, updEnt Q i i 1 rr k = Q rr k := by
    intro rr
    have hx : ¬ (rr = i ∧ k = i) := fun hxx => hik hxx.2.symm
    simp only [updEnt]
    rw [if_neg hx]
  have hip : dotc (m - i) (fun l => updEnt Q i i 1 (i + l) i)
      (fun l => updEnt Q i i 1 (i + l) k) =
      ∑ l ∈ Finset.range (m - i),
        (if i + l = i then 1 else QR (i + l) i) * Q (i + l) k := by
    rw [dotc_eq]
    refine Finset.sum_congr rfl (fun l _ => ?_)
    rw [hent1, hent2]
  simp only [ApplyReflector, ReflectColSpec, colOf]
  rw [hip]
  have hne1 : ¬ (r = i ∧ k = i) := fun hx => hik hx.2.symm
  rw [updEnt_of_ne _ _ _ _ _ _ hne1]
  by_cases hr : r = i
  · subst hr
    rw [updEnt_same]
    simp only [hent1, hent2, if_pos rfl, le_refl, true_and, and_true,
      eq_self_iff_true, if_true]
    by_cases hm : r < m
    · rw [if_pos hm, if_pos hm, qmul_eq, qadd_eq, qmul_eq, qneg_eq, qmul_eq]
      ring
    · rw [if_neg hm, if_neg hm, qmul_eq]
  · rw [updEnt_of_ne _ _ _ _ _ _ (fun hx => hr hx.1)]
    rw [if_neg hr]
    by_cases hm : i ≤ r ∧ r < m
    · rw [if_pos ⟨rfl, hm⟩, if_pos hm, hent2, hent1, if_neg hr,
        qadd_eq, qmul_eq, qneg_eq, qmul_eq]
      ring
    · rw [if_neg (fun hx => hm hx.2), if_neg hm, hent2]


theorem expandQR_fold (m k : ℕ) (t : Vec) (d : Vec) (QR : Mat) :
    ∀ (l : List ℕ), (∀ i ∈ l, i ≠ k) → ∀ (Q : Mat) (v : Vec),
      (∀ r c, c ≠ k → Q r c = QR r c) → (∀ r, Q r k = v r) →
      (∀ r c, c ≠ k →
        (l.foldl (fun Q2 i => ApplyReflector m i k t d Q2) Q) r c = QR r c) ∧
      (∀ r, (l.foldl (fun Q2 i => ApplyReflector m i k t d Q2) Q) r k =
        (l.foldl (fun v2 i => ReflectColSpec m i t d QR v2) v) r) := by
  intro l
  induction l with
  | nil => exact fun _ Q v hQ hv => ⟨hQ, hv⟩
  | cons a tl ih =>
    intro hmem Q v hQ hv
    have ha : a ≠ k := hmem a (List.mem_cons_self a tl)
    have h1 : ∀ r c, c ≠ k → ApplyReflector m a k t d Q r c = QR r c :=
      fun r c hc => (applyReflector_frame m a k t d Q ha r c hc).trans (hQ r c hc)
    have h2 : ∀ r, ApplyReflector m a k t d Q r k =
        ReflectColSpec m a t d QR v r := by
      intro r
      have hc := applyReflector_col m a k t d QR Q ha hQ r
      have hcv : colOf Q k = v := funext hv
      rwa [hcv] at hc
    exact ih (fun i hi => hmem i (List.mem_cons_of_mem a hi)) _ _ h1 h2

theorem expandQR_orthog_fold (m k : ℕ) (t : Vec) (d : Vec) (QR : Mat) :
    ∀ (L : List ℕ) (Q : Mat) (v : Vec),
      (∀ r c, c ≠ k → Q r c = QR r c) → (∀ r, Q r k = v r) →
      (∀ r c, c ≠ k →
        (L.foldl (fun Q2 _ =>
          (List.range k).foldl (fun Q3 i => ApplyReflector m i k t d Q3) Q2) Q)
          r c = QR r c) ∧
      (∀ r, (L.foldl (fun Q2 _ =>
          (List.range k).foldl (fun Q3 i => ApplyReflector m i k t d Q3) Q2) Q)
          r k =
        (L.foldl (fun v2 _ =>
          (List.range k).foldl (fun v3 i => ReflectColSpec m i t d QR v3) v2) v) r) := by
  intro L
  induction L with
  | nil => exact fun Q v hQ hv => ⟨hQ, hv⟩
  | cons a tl ih =>
    intro Q v hQ hv
    have hmem : ∀ i ∈ List.range k, i ≠ k := by
      intro i hi
      have := List.mem_range.mp hi
      omega
    obtain ⟨h1, h2⟩ := expandQR_fold m k t d QR (List.range k) hmem Q v hQ hv
    exact ih _ _ h1 h2

/-- Claim C8: `ExpandQR(k)` changes no entry of `QR` outside column `k`
(reading `B`, `t`, `d` only), and its effect on column `k` is exactly the
specification-level description `ExpandQRColSpec`: overwrite with `B(:,k)`
and `numOrthog` times over apply the reflectors `0..k-1` in increasing
order, each application taking the head of the reflector column as `1`,
forming the conjugated inner product over rows `i..m-1`, subtracting
`t[i]` times that product times the reflector column on those rows,
rescaling position `i` by `d[i]`, and leaving the saved diagonal value in
place. -/
theorem C8_expandqr_column (m k : ℕ) (B QR : Mat) (t : Vec) (d : Vec)
    (numOrthog : ℕ) :
    (∀ r c, c ≠ k → ExpandQR m k B QR t d numOrthog r c = QR r c) ∧
    (∀ r, ExpandQR m k B QR t d numOrthog r k =
      ExpandQRColSpec m k B QR t d numOrthog r) := by
  have h0 : ∀ r c, c ≠ k →
      (fun r c => if c = k ∧ r < m then B r k else QR r c : Mat) r c = QR r c := by
    intro r c hc
    simp only [hc, false_and, if_false, reduceIte]
  have h0v : ∀ r, (fun r c => if c = k ∧ r < m then B r k else QR r c : Mat) r k =
      (fun r => if r < m then B r k else QR r k : Vec) r := by
    intro r
    by_cases hrm : r < m
    · simp [hrm]
    · simp [hrm]
  exact expandQR_orthog_fold m k t d QR (List.range numOrthog) _ _ h0 h0v

theorem C8_expandqr_column_witness :
    ExpandQR 2 1 Bex idMat (fun _ => 0) (fun _ => 1) 1 0 0 = idMat 0 0 :=
  (C8_expandqr_column 2 1 Bex idMat (fun _ => 0) (fun _ => 1) 1).1 0 0 (by decide)

/-- Counterexample to claim C1 as stated: on the rank-deficient basis
with columns `(3,4)` and `(6,8)` the flat driver returns `rank = 1`, yet
column `1` (a position at/beyond the rank) is the nonzero `(3,4)` — the
detected zero column was moved to the leading position, not a trailing
one. -/
theorem C1_zero_columns_trailing_cex : ¬ ZeroColsTrailing 2 2 runC1 := by
  intro h
  cases hr : runC1 with
  | error e =>
    have hd : runData runC1 = some (1, 1, 1) := by decide
    rw [hr] at hd
    simp only [runData] at hd
    exact Option.noConfusion hd
  | ok o =>
    cases o with
    | none =>
      have hd : runData runC1 = some (1, 1, 1) := by decide
      rw [hr] at hd
      simp only [runData] at hd
      exact Option.noConfusion hd
    | some p =>
      have hd : runData runC1 = some (1, 1, 1) := by decide
      have h31 : runBent runC1 0 1 = some 3 := by decide
      rw [hr] at hd h31
      simp only [runData, Option.some.injEq, Prod.mk.injEq] at hd
      simp only [runBent, Option.some.injEq] at h31
      have hz := h p hr 1 (by norm_num) (by rw [hd.1]; norm_num) 0 (by norm_num)
      rw [hz] at h31
      norm_num at h31

/-- Claim C1, amended (a statement about the concrete run that refutes
the original): on the rank-deficient example with columns `(3,4)` and
`(6,8)`, the flat driver returns normally with `rank = 1`, `nullity = 1`,
`numSwaps = 1`, and the detected zero column sits at the LEADING
position: every column `j < nullity` of the returned basis is zero
(so `B(:,0) = 0`), while the trailing column `1` is the nonzero `(3,4)`. -/
theorem C1_zero_columns_leading :
    runData runC1 = some (1, 1, 1) ∧ ZeroColsLeading 2 2 runC1 ∧
    runBent runC1 0 1 = some 3 ∧ runBent runC1 1 1 = some 4 := by
  refine ⟨by decide, ?_, by decide, by decide⟩
  intro p hp j hj hjn i hi
  have hd : runData runC1 = some (1, 1, 1) := by decide
  rw [hp] at hd
  simp only [runData, Option.some.injEq, Prod.mk.injEq] at hd
  rw [hd.2.1] at hjn
  have hj0 : j = 0 := by omega
  subst hj0
  have h00 : runBent runC1 0 0 = some 0 := by decide
  have h10 : runBent runC1 1 0 = some 0 := by decide
  rw [hp] at h00 h10
  simp only [runBent, Option.some.injEq] at h00 h10
  interval_cases i
  · exact h00
  · exact h10

theorem mulEntry_weak_pair (n k : ℕ) (a : ℚ) (U V : Mat)
    (hk1 : 1 ≤ k) (hkn : k < n) (r c : ℕ) (hr : r < n) (hc : c < n) :
    mulEntry n (axpyColPrefix n (qneg a) (k - 1) k U)
      (axpyRowPrefix n a k (k - 1) V) r c = mulEntry n U V r c := by
  have hkk : ¬ (k = k - 1) := by omega
  have hsplit : ∀ i ∈ Finset.range n,
      axpyColPrefix n (qneg a) (k - 1) k U r i *
        axpyRowPrefix n a k (k - 1) V i c
      = U r i * V i c
        + ((if i = k then -(a * U r (k - 1) * V k c) else 0)
          + (if i = k - 1 then a * U r (k - 1) * V k c else 0)) := by
    intro i _
    by_cases hik : i = k
    · subst hik
      have h1 : axpyColPrefix n (qneg a) (i - 1) i U r i =
          qadd (U r i) (qmul (qneg a) (U r (i - 1))) := by
        simp [axpyColPrefix, hr]
      have h2 : axpyRowPrefix n a i (i - 1) V i c = V i c := by
        simp [axpyRowPrefix, hkk]
      rw [h1, h2, qadd_eq, qmul_eq, qneg_eq, if_pos rfl, if_neg hkk]
      ring
    · by_cases hik1 : i = k - 1
      · subst hik1
        have h1 : axpyColPrefix n (qneg a) (k - 1) k U r (k - 1) = U r (k - 1) := by
          simp [axpyColPrefix, hik]
        have h2 : axpyRowPrefix n a k (k - 1) V (k - 1) c =
            qadd (V (k - 1) c) (qmul a (V k c)) := by
          simp [axpyRowPrefix, hc]
        rw [h1, h2, qadd_eq, qmul_eq, if_neg hik, if_pos rfl]
        ring
      · have h1 : axpyColPrefix n (qneg a) (k - 1) k U r i = U r i := by
          simp [axpyColPrefix, hik]
        have h2 : axpyRowPrefix n a k (k - 1) V i c = V i c := by
          simp [axpyRowPrefix, hik1]
        rw [h1, h2, if_neg hik, if_neg hik1]
        ring
  rw [mulEntry, mulEntry, Finset.sum_congr rfl hsplit, Finset.sum_add_distrib,
    Finset.sum_add_distrib, Finset.sum_ite_eq' _ k _, Finset.sum_ite_eq' _ (k - 1) _,
    if_pos (Finset.mem_range.mpr hkn),
    if_pos (Finset.mem_range.mpr (show k - 1 < n by omega))]
  ring

theorem mulEntry_standard_pair (n k : ℕ) (x : Vec) (U V : Mat)
    (hkn : k < n) (r c : ℕ) (hr : r < n) (hc : c < n) :
    mulEntry n (GemvColUpdate n k x U) (GeruRowUpdate n k x V) r c =
      mulEntry n U V r c := by
  have hsplit : ∀ i ∈ Finset.range n,
      GemvColUpdate n k x U r i * GeruRowUpdate n k x V i c
      = U r i * V i c
        + ((if i = k then -(dotc k x (fun j => U r j) * V k c) else 0)
          + (if i < k then x i * U r i * V k c else 0)) := by
    intro i _
    by_cases hik : i = k
    · subst hik
      have h1 : GemvColUpdate n i x U r i =
          qsub (U r i) (dotc i x (fun j => U r j)) := by
        simp [GemvColUpdate, hr]
      have h2 : GeruRowUpdate n i x V i c = V i c := by
        simp [GeruRowUpdate]
      rw [h1, h2, qsub_eq, if_pos rfl, if_neg (lt_irrefl i)]
      ring
    · have h1 : GemvColUpdate n k x U r i = U r i := by
        simp [GemvColUpdate, hik]
      by_cases hilt : i < k
      · have h2 : GeruRowUpdate n k x V i c =
            qadd (V i c) (qmul (x i) (V k c)) := by
          simp [GeruRowUpdate, hilt, hc]
        rw [h1, h2, qadd_eq, qmul_eq, if_neg hik, if_pos hilt]
        ring
      · have h2 : GeruRowUpdate n k x V i c = V i c := by
          simp [GeruRowUpdate, hilt]
        rw [h1, h2, if_neg hik, if_neg hilt]
        ring
  have hrest : ∑ i ∈ Finset.range n, (if i < k then x i * U r i * V k c else 0)
      = dotc k x (fun j => U r j) * V k c := by
    rw [← Finset.sum_subset (Finset.range_subset.mpr (le_of_lt hkn))
      (fun i _ hni => if_neg (by simpa using hni))]
    rw [Finset.sum_congr rfl
      (fun i hi => if_pos (Finset.mem_range.mp hi))]
    rw [dotc_eq, Finset.sum_mul]
  rw [mulEntry, mulEntry, Finset.sum_congr rfl hsplit, Finset.sum_add_distrib,
    Finset.sum_add_distrib, Finset.sum_ite_eq' _ k _,
    if_pos (Finset.mem_range.mpr hkn), hrest]
  ring

theorem mulEntry_swap_pair (n k : ℕ) (U V : Mat)
    (hk1 : 1 ≤ k) (hkn : k < n) (r c : ℕ) :
    mulEntry n (ColSwap U (k - 1) k) (RowSwap V (k - 1) k) r c =
      mulEntry n U V r c := by
  have hkk : k - 1 ≠ k := by omega
  rw [mulEntry, mulEntry]
  refine Finset.sum_equiv (Equiv.swap (k - 1) k) ?_ ?_
  · intro i
    by_cases h1 : i = k - 1
    · subst h1
      rw [Equiv.swap_apply_left]
      simp only [Finset.mem_range]
      omega
    · by_cases h2 : i = k
      · subst h2
        rw [Equiv.swap_apply_right]
        simp only [Finset.mem_range]
        omega
      · rw [Equiv.swap_apply_of_ne_of_ne h1 h2]
  · intro i _
    by_cases h1 : i = k - 1
    · subst h1
      rw [Equiv.swap_apply_left]
      simp [ColSwap, RowSwap]
    · by_cases h2 : i = k
      · subst h2
        rw [Equiv.swap_apply_right]
        simp [ColSwap, RowSwap, h1]
      · rw [Equiv.swap_apply_of_ne_of_ne h1 h2]
        simp [ColSwap, RowSwap, h1, h2]

theorem shiftColsRight_ent (i : ℕ) : ∀ (cnt : ℕ) (A : Mat) (r c : ℕ),
    ShiftColsRight i cnt A r c =
      if i < c ∧ c ≤ i + cnt then A r (c - 1) else A r c := by
  intro cnt
  induction cnt with
  | zero =>
    intro A r c
    simp only [ShiftColsRight]
    rw [if_neg (by omega)]
  | succ cnt ih =>
    intro A r c
    simp only [ShiftColsRight]
    rw [ih]
    by_cases h1 : i < c ∧ c ≤ i + cnt
    · rw [if_pos h1, if_pos (by omega)]
      simp only [updCol, colOf]
      rw [if_neg (by omega)]
    · rw [if_neg h1]
      simp only [updCol, colOf]
      by_cases h2 : c = i + cnt + 1
      · rw [if_pos h2, if_pos (by omega)]
        subst h2
        congr 1
      · rw [if_neg h2, if_neg (by omega)]

theorem shiftRowsDown_ent (i : ℕ) : ∀ (cnt : ℕ) (A : Mat) (r c : ℕ),
    ShiftRowsDown i cnt A r c =
      if i < r ∧ r ≤ i + cnt then A (r - 1) c else A r c := by
  intro cnt
  induction cnt with
  | zero =>
    intro A r c
    simp only [ShiftRowsDown]
    rw [if_neg (by omega)]
  | succ cnt ih =>
    intro A r c
    simp only [ShiftRowsDown]
    rw [ih]
    by_cases h1 : i < r ∧ r ≤ i + cnt
    · rw [if_pos h1, if_pos (by omega)]
      simp only [updRow, rowOf]
      rw [if_neg (by omega)]
    · rw [if_neg h1]
      simp only [updRow, rowOf]
      by_cases h2 : r = i + cnt + 1
      · rw [if_pos h2, if_pos (by omega)]
        subst h2
        congr 1
      · rw [if_neg h2, if_neg (by omega)]

theorem deepColSwap_ent (A : Mat) (i k : ℕ) (hik : i ≤ k) (r c : ℕ) :
    DeepColSwap A i k r c =
      if c = i then A r k else if i < c ∧ c ≤ k then A r (c - 1) else A r c := by
  simp only [DeepColSwap, updCol, colOf]
  by_cases h : c = i
  · rw [if_pos h, if_pos h]
  · rw [if_neg h, if_neg h, shiftColsRight_ent]
    have hsum : i + (k - i) = k := by omega
    rw [hsum]

theorem deepRowSwap_ent (A : Mat) (i k : ℕ) (hik : i ≤ k) (r c : ℕ) :
    DeepRowSwap A i k r c =
      if r = i then A k c else if i < r ∧ r ≤ k then A (r - 1) c else A r c := by
  simp only [DeepRowSwap, updRow, rowOf]
  by_cases h : r = i
  · rw [if_pos h, if_pos h]
  · rw [if_neg h, if_neg h, shiftRowsDown_ent]
    have hsum : i + (k - i) = k := by omega
    rw [hsum]

theorem mulEntry_deep_pair (n i k : ℕ) (U V : Mat)
    (hik : i ≤ k) (hkn : k < n) (r c : ℕ) :
    mulEntry n (DeepColSwap U i k) (DeepRowSwap V i k) r c =
      mulEntry n U V r c := by
  rw [mulEntry, mulEntry]
  refine Finset.sum_equiv
    ⟨fun j => if j = i then k else if i < j ∧ j ≤ k then j - 1 else j,
     fun j => if j = k then i else if i ≤ j ∧ j < k then j + 1 else j,
     ?_, ?_⟩ ?_ ?_
  · intro j
    dsimp only
    split_ifs <;> omega
  · intro j
    dsimp only
    split_ifs <;> omega
  · intro j
    simp only [Equiv.coe_fn_mk, Finset.mem_range]
    split_ifs <;> omega
  · intro j hj
    rw [deepColSwap_ent U i k hik, deepRowSwap_ent V i k hik]
    simp only [Equiv.coe_fn_mk]
    split_ifs <;> first | rfl | omega

theorem weakReduce_inv (ctrl : LLLCtrl) (m n k : ℕ) (st : LLLState)
    (hk1 : 1 ≤ k) (hkn : k < n) (h : IsInvPair n st.U st.UInv) :
    IsInvPair n (WeakReduce ctrl m n k true true st).U
      (WeakReduce ctrl m n k true true st).UInv := by
  simp only [WeakReduce]
  split_ifs with h1 h2
  · intro r hr c hc
    dsimp only
    try simp only [reduceIte]
    rw [mulEntry_weak_pair n k _ st.U st.UInv hk1 hkn r c hr hc]
    exact h r hr c hc
  · exact h
  · exact h

theorem standardReduce_inv (ctrl : LLLCtrl) (m n k : ℕ) (st : LLLState)
    (hkn : k < n) (h : IsInvPair n st.U st.UInv) :
    IsInvPair n (StandardReduce ctrl m n k true true st).U
      (StandardReduce ctrl m n k true true st).UInv := by
  intro r hr c hc
  simp only [StandardReduce]
  try dsimp only
  try simp only [reduceIte]
  rw [mulEntry_standard_pair n k _ st.U st.UInv hkn r c hr hc]
  exact h r hr c hc

theorem stepIter_inv (ops : ScalarOps) (ctrl : LLLCtrl) (m n k : ℕ)
    (st : LLLState) (hk1 : 1 ≤ k) (hkn : k < n)
    (h : IsInvPair n st.U st.UInv) :
    ∀ out, StepIter ops ctrl m n k true true st = .ok out →
      IsInvPair n (outSt out).U (outSt out).UInv := by
  intro out hout
  rcases Bool.eq_false_or_eq_true ctrl.weak with hw | hw
  all_goals rw [StepIter] at hout
  all_goals simp only [hw, Bool.false_eq_true, Bool.true_eq_false, if_false,
    if_true, reduceIte] at hout
  all_goals split_ifs at hout with h1 h2 h3 h4 h5 h6
  all_goals simp only [Except.ok.injEq, reduceCtorEq] at hout
  all_goals subst hout
  all_goals dsimp only [outSt]
  all_goals first
    | exact h
    | exact standardReduce_inv ctrl m n k _ hkn h
    | exact weakReduce_inv ctrl m n k _ hk1 hkn h

theorem step_inv (ops : ScalarOps) (ctrl : LLLCtrl) (m n k : ℕ)
    (hk1 : 1 ≤ k) (hkn : k < n) :
    ∀ (fuel : ℕ) (st st' : LLLState) (b : Bool),
      IsInvPair n st.U st.UInv →
      Step ops ctrl m n k true true fuel st = .ok (some (st', b)) →
      IsInvPair n st'.U st'.UInv := by
  intro fuel
  induction fuel with
  | zero =>
    intro st st' b h hstep
    simp [Step] at hstep
  | succ f ih =>
    intro st st' b h hstep
    rw [Step] at hstep
    cases hit : StepIter ops ctrl m n k true true st with
    | error e => rw [hit] at hstep; simp at hstep
    | ok o =>
      rw [hit] at hstep
      cases o with
      | done s2 b2 =>
        simp only [Except.ok.injEq, Option.some.injEq, Prod.mk.injEq] at hstep
        have h2 := stepIter_inv ops ctrl m n k st hk1 hkn h (.done s2 b2) hit
        rw [← hstep.1]
        exact h2
      | next s2 =>
        exact ih s2 st' b (stepIter_inv ops ctrl m n k st hk1 hkn h (.next s2) hit)
          hstep

theorem initFirst_U (ops : ScalarOps) (ctrl : LLLCtrl) (m : ℕ) (st : LLLState) :
    (InitFirstColumn ops ctrl m st).1.U = st.U := by
  simp only [InitFirstColumn]
  split_ifs <;> rfl

theorem initFirst_UInv (ops : ScalarOps) (ctrl : LLLCtrl) (m : ℕ)
    (st : LLLState) :
    (InitFirstColumn ops ctrl m st).1.UInv = st.UInv := by
  simp only [InitFirstColumn]
  split_ifs <;> rfl

theorem lovasz_inv (ops : ScalarOps) (ctrl : LLLCtrl) (m n : ℕ)
    (st : LLLState) (k nu sw : ℕ) (hk1 : 1 ≤ k) (hkn : k < n)
    (h : IsInvPair n st.U st.UInv) :
    IsInvPair n (LovaszTestAndSwap ops ctrl m n true true st k nu sw).1.U
      (LovaszTestAndSwap ops ctrl m n true true st k nu sw).1.UInv ∧
    1 ≤ (LovaszTestAndSwap ops ctrl m n true true st k nu sw).2.1 := by
  have hswap : IsInvPair n (ColSwap st.U (k - 1) k) (RowSwap st.UInv (k - 1) k) := by
    intro r hr c hc
    rw [mulEntry_swap_pair n k st.U st.UInv hk1 hkn r c]
    exact h r hr c hc
  simp only [LovaszTestAndSwap]
  split_ifs with h1 h2
  · refine ⟨h, ?_⟩
    dsimp only
    omega
  · refine ⟨?_, le_refl 1⟩
    rw [initFirst_U, initFirst_UInv]
    dsimp only
    try simp only [reduceIte]
    exact hswap
  · refine ⟨?_, ?_⟩
    · dsimp only
      try simp only [reduceIte]
      exact hswap
    · dsimp only
      omega

theorem loop_inv (ops : ScalarOps) (ctrl : LLLCtrl) (m n : ℕ) :
    ∀ (fuel : ℕ) (st : LLLState) (k nu sw : ℕ) (stf : LLLState) (nuf swf : ℕ),
      1 ≤ k → IsInvPair n st.U st.UInv →
      UnblockedLoop ops ctrl m n true true fuel (st, k, nu, sw) =
        .ok (some (stf, nuf, swf)) →
      IsInvPair n stf.U stf.UInv := by
  intro fuel
  induction fuel with
  | zero =>
    intro st k nu sw stf nuf swf hk1 h hloop
    simp only [UnblockedLoop] at hloop
    split_ifs at hloop
    · simp at hloop
    · simp only [Except.ok.injEq, Option.some.injEq, Prod.mk.injEq] at hloop
      rw [← hloop.1]
      exact h
  | succ f ih =>
    intro st k nu sw stf nuf swf hk1 h hloop
    simp only [UnblockedLoop] at hloop
    split_ifs at hloop with hklt
    · cases hS : Step ops ctrl m n k true true (f + 1) st with
      | error e => rw [hS] at hloop; simp at hloop
      | ok o =>
        rw [hS] at hloop
        cases o with
        | none => simp at hloop
        | some p =>
          obtain ⟨st', zv⟩ := p
          dsimp only at hloop
          have hst' : IsInvPair n st'.U st'.UInv :=
            step_inv ops ctrl m n k hk1 hklt (f + 1) st st' zv h hS
          rcases hq : LovaszTestAndSwap ops ctrl m n true true st' k
              (if zv then k + 1 else min nu k) sw with ⟨st2, k2, nu2, sw2⟩
          have hlv := lovasz_inv ops ctrl m n st' k
            (if zv then k + 1 else min nu k) sw hk1 hklt hst'
          rw [hq] at hlv hloop
          exact ih st2 k2 nu2 sw2 stf nuf swf hlv.2 hlv.1 hloop
    · simp only [Except.ok.injEq, Option.some.injEq, Prod.mk.injEq] at hloop
      rw [← hloop.1]
      exact h

theorem unblockedAlg_inv (ops : ScalarOps) (ctrl : LLLCtrl) (m n : ℕ)
    (B U0 V0 : Mat) (fuel : ℕ) (h : IsInvPair n U0 V0) :
    InvAtRun n (UnblockedAlg ops ctrl m n B U0 V0 true true fuel) := by
  intro p hp
  simp only [UnblockedAlg] at hp
  cases hL : UnblockedLoop ops ctrl m n true true fuel
      ((InitFirstColumn ops ctrl m
          { B := B, U := U0, UInv := V0, QR := fun _ _ => 0,
            t := fun _ => 0, d := fun _ => 0 }).1, 1,
        (InitFirstColumn ops ctrl m
          { B := B, U := U0, UInv := V0, QR := fun _ _ => 0,
            t := fun _ => 0, d := fun _ => 0 }).2, 0) with
  | error e =>
    rw [hL] at hp
    simp at hp
  | ok o =>
    rw [hL] at hp
    cases o with
    | none => simp at hp
    | some q =>
      rcases q with ⟨stf, nuf, swf⟩
      have hinv0 : IsInvPair n
          (InitFirstColumn ops ctrl m
            { B := B, U := U0, UInv := V0, QR := fun _ _ => 0,
              t := fun _ => 0, d := fun _ => 0 }).1.U
          (InitFirstColumn ops ctrl m
            { B := B, U := U0, UInv := V0, QR := fun _ _ => 0,
              t := fun _ => 0, d := fun _ => 0 }).1.UInv := by
        rw [initFirst_U, initFirst_UInv]
        exact h
      have hf : IsInvPair n stf.U stf.UInv :=
        loop_inv ops ctrl m n fuel _ 1 _ 0 stf nuf swf (le_refl 1) hinv0 hL
      simp only [Except.ok.injEq, Option.some.injEq] at hp
      rw [← hp]
      exact hf

/-- Claim C2: with both transforms tracked (`formU = formUInv = true`),
every column operation of the reduction preserves `U · UInv = I` exactly:
the weak-mode axpy on `U`'s column `k` paired with the opposite axpy on
`UInv`'s row `k-1`, the standard-mode Gemv on `U`'s column `k` paired with
the Geru on `UInv`'s rows `0..k-1`, each `ColSwap` of `U` paired with the
`RowSwap` of `UInv`, and likewise the deep column shift of `U` paired with
the deep row shift of `UInv`; consequently, whenever the flat driver is
started on transforms with `U · UInv = I` (in particular on identities) and
returns normally, the final transforms still satisfy `U · UInv = I` on the
leading `n × n` block. -/
theorem C2_transform_inverse :
    (∀ (n k : ℕ) (a : ℚ) (U V : Mat), 1 ≤ k → k < n → ∀ r, r < n → ∀ c, c < n →
      mulEntry n (axpyColPrefix n (qneg a) (k - 1) k U)
        (axpyRowPrefix n a k (k - 1) V) r c = mulEntry n U V r c) ∧
    (∀ (n k : ℕ) (x : Vec) (U V : Mat), k < n → ∀ r, r < n → ∀ c, c < n →
      mulEntry n (GemvColUpdate n k x U) (GeruRowUpdate n k x V) r c =
        mulEntry n U V r c) ∧
    (∀ (n k : ℕ) (U V : Mat), 1 ≤ k → k < n → ∀ r c,
      mulEntry n (ColSwap U (k - 1) k) (RowSwap V (k - 1) k) r c =
        mulEntry n U V r c) ∧
    (∀ (n i k : ℕ) (U V : Mat), i ≤ k → k < n → ∀ r c,
      mulEntry n (DeepColSwap U i k) (DeepRowSwap V i k) r c =
        mulEntry n U V r c) ∧
    (∀ (ops : ScalarOps) (ctrl : LLLCtrl) (m n : ℕ) (B U0 V0 : Mat) (fuel : ℕ),
      IsInvPair n U0 V0 →
      InvAtRun n (UnblockedAlg ops ctrl m n B U0 V0 true true fuel)) :=
  ⟨fun n k a U V hk1 hkn r hr c hc => mulEntry_weak_pair n k a U V hk1 hkn r c hr hc,
   fun n k x U V hkn r hr c hc => mulEntry_standard_pair n k x U V hkn r c hr hc,
   fun n k U V hk1 hkn r c => mulEntry_swap_pair n k U V hk1 hkn r c,
   fun n i k U V hik hkn r c => mulEntry_deep_pair n i k U V hik hkn r c,
   fun ops ctrl m n B U0 V0 fuel h => unblockedAlg_inv ops ctrl m n B U0 V0 fuel h⟩

/-- Witness for C2 at a concrete input: the tracked run on the
rank-deficient example returns normally (rank 1, nullity 1, one swap), and
the driver conjunct applied to the identity transforms yields
`U · UInv = I` at return. -/
theorem C2_transform_inverse_witness :
    runData runC2 = some (1, 1, 1) ∧ InvAtRun 2 runC2 :=
  ⟨by decide,
   C2_transform_inverse.2.2.2.2 opsQ ctrlQ 2 2 Bex idMat idMat 10
     (by
       intro r hr c hc
       interval_cases r <;> interval_cases c <;>
         simp [mulEntry, idMat, Finset.sum_range_succ])⟩
